import Mathlib

/-!
Verification development for the mockturtle node-local resynthesis pipeline:
the MIG enumerative resynthesis engine (`mig_enumerative.hpp`), the
cone-of-influence view (`coi_view.hpp`) and the refactoring driver
(`refactor.hpp`), shallowly embedded in Lean 4.

Truth tables (the external kitty library's bit-parallel boolean vectors) are
modelled as lists of booleans; networks as finite DAGs over natural-number
node identifiers whose fan-ins have strictly smaller identifiers (the
storage invariant of mockturtle's network types: a gate is created after
its fan-ins).  Fallible code paths (C `assert`) are modelled with
`Option`/`Except`.
-/

/-! ## Truth tables (kitty collaborator: bit-parallel boolean vectors) -/


namespace kitty

/-- Truth table: a bit-parallel boolean vector of some width. -/
abbrev TT := List Bool

/-- Bitwise NOT (`~a`). -/
def ttNot (a : TT) : TT := a.map (fun b => !b)

/-- Bitwise AND (`a & b`). -/
def ttAnd (a b : TT) : TT := List.zipWith (fun x y => x && y) a b

/-- Bitwise OR (`a | b`). -/
def ttOr (a b : TT) : TT := List.zipWith (fun x y => x || y) a b

/-- Majority of three booleans. -/
def bmaj (a b c : Bool) : Bool := (a && b) || (a && c) || (b && c)

/-- Bitwise ternary majority (`kitty::ternary_majority`). -/
def ternary_majority : TT → TT → TT → TT
  | a :: as, b :: bs, c :: cs => bmaj a b c :: ternary_majority as bs cs
  | _, _, _ => []

/-- Test for the constant-0 function (`kitty::is_const0`). -/
def is_const0 (a : TT) : Bool := a.all (fun b => !b)

/-- Implication test (`kitty::implies a b`, "a implies b everywhere"). -/
def implies (a b : TT) : Bool := is_const0 (ttAnd a (ttNot b))

end kitty

/-! ## Index lists

The type `mockturtle::mig_index_list` lives in `utils/index_list.hpp`, which
is not part of the sources; it is used by the engine through `add_maj` /
`add_output`.  Modelled from the spec: an Index List is "an input count, an
ordered sequence of (3-literal) gate entries, and declared output literals";
"a literal encodes (index, polarity); index 0 is the constant, indices >= 1
address an original input (by position) or a prior entry (by sequence
position)". -/

/-- Modelled from the spec: `mockturtle::mig_index_list` (from
`utils/index_list.hpp`, not under src/): an input count, gate entries of
three fan-in literals each, and declared output literals. -/
structure mig_index_list where
  num_inputs : Nat
  gates : List (Nat × Nat × Nat)
  outputs : List Nat
deriving DecidableEq

/-- Modelled from the spec: `add_output` declares an output literal. -/
def mig_index_list.add_output (il : mig_index_list) (lit : Nat) : mig_index_list :=
  { il with outputs := il.outputs ++ [lit] }

/-- Modelled from the spec: `add_maj` appends one 3-input majority gate entry
and returns the (uncomplemented) literal addressing the new entry, whose
index follows the constant (index 0), the inputs (indices `1..num_inputs`)
and the previously appended entries. -/
def mig_index_list.add_maj (il : mig_index_list) (a b c : Nat) : mig_index_list × Nat :=
  ({ il with gates := il.gates ++ [(a, b, c)] },
   2 * (il.num_inputs + il.gates.length + 1))

/-! Replay semantics of an index list, modelled from the spec (sections 3
and 8): literal `2*i + p` denotes index `i` with polarity `p`; index 0 is
the constant false, indices `1..num_inputs` address the candidate truth
tables by position, larger indices address gate entries by position, and
each gate entry computes the 3-input majority of its fan-in literals. -/

/-- Value of a literal, given the candidate truth tables `inputs`, the
values `gate_vals` of the already-evaluated gate entries, and the
truth-table width `w` (for the constant). -/
def eval_lit (w : Nat) (inputs gate_vals : List kitty.TT) (lit : Nat) : kitty.TT :=
  let idx := lit / 2
  let v :=
    if idx = 0 then List.replicate w false
    else if idx ≤ inputs.length then inputs.getD (idx - 1) []
    else gate_vals.getD (idx - inputs.length - 1) []
  if lit % 2 = 1 then kitty.ttNot v else v

/-- Values of the gate entries of an index list, in order. -/
def eval_gates (w : Nat) (inputs : List kitty.TT) (gates : List (Nat × Nat × Nat)) :
    List kitty.TT :=
  gates.foldl
    (fun acc g =>
      acc ++ [kitty.ternary_majority (eval_lit w inputs acc g.1)
        (eval_lit w inputs acc g.2.1) (eval_lit w inputs acc g.2.2)]) []

/-- Replaying an index list: the truth table realized at output literal
`lit` over the candidate truth tables `inputs`. -/
def eval_output (w : Nat) (il : mig_index_list) (inputs : List kitty.TT) (lit : Nat) :
    kitty.TT :=
  eval_lit w inputs (eval_gates w inputs il.gates) lit

/-! ## MIG enumerative resynthesis engine

Shallow embedding of `mig_enumerative_resyn::operator()`
(`algorithms/resyn_engines/mig_enumerative.hpp`, lines 70-228).  The
candidate iterator range plus truth-table storage of the C++ template is
collapsed into the list `tts` of the candidates' truth tables in candidate
order; `max_size` is the size budget.  The leading `assert` on the care set
is modelled separately in `mig_enumerative.run_checked`. -/

namespace mig_enumerative

open kitty

/-- Literal for candidate `var` (0-based), optionally complemented
(`mig_enumerative_resyn::make_lit`): `(var + 1) * 2 + inv`. -/
def make_lit (var : Nat) (inv : Bool) : Nat :=
  (var + 1) * 2 + (if inv then 1 else 0)

/-- Truth table denoted by an input literal
(`mig_enumerative_resyn::get_tt_from_lit`).  The C++ indexes
`begin + (lit / 2) - 1`; it is only ever called with literals addressing a
candidate, which the correctness proofs track via an explicit validity
hypothesis. -/
def get_tt_from_lit (lit : Nat) (tts : List TT) : TT :=
  if lit % 2 = 1 then ttNot (tts.getD (lit / 2 - 1) []) else tts.getD (lit / 2 - 1) []

/-- The 0-resub scan (lines 93-105): first candidate equal to the target
(output its literal) or to the complemented target (output the complemented
literal); `i` is the index of the head of the remaining list. -/
def zero_resub (target ntarget : TT) : List TT → Nat → Option Nat
  | [], _ => none
  | t :: rest, i =>
    if target = t then some (make_lit i false)
    else if ntarget = t then some (make_lit i true)
    else zero_resub target ntarget rest (i + 1)

/-- One candidate pair step of the MAJ prefilter (lines 120-135): the four
sign combinations are tried in order in an `else if` chain, so at most the
first satisfying combination is recorded. -/
def pair_combo (target a b : TT) (i j : Nat) : List (Nat × Nat) :=
  if ternary_majority a b target = target then
    [(make_lit i false, make_lit j false)]
  else if ternary_majority (ttNot a) b target = target then
    [(make_lit i true, make_lit j false)]
  else if ternary_majority a (ttNot b) target = target then
    [(make_lit i false, make_lit j true)]
  else if ternary_majority (ttNot a) (ttNot b) target = target then
    [(make_lit i true, make_lit j true)]
  else []

/-- One single-candidate step of the prefilter against the constants
(lines 137-152), again an `else if` chain: second pair slot `1` records
"candidate implies target", second slot `0` records "target implies
candidate". -/
def single_combo (target a : TT) (i : Nat) : List (Nat × Nat) :=
  if implies a target then [(make_lit i false, 1)]
  else if implies (ttNot a) target then [(make_lit i true, 1)]
  else if implies target a then [(make_lit i false, 0)]
  else if implies target (ttNot a) then [(make_lit i true, 0)]
  else []

/-- Inner loop of the prefilter: candidate `a` (index `i`) against all later
candidates, `j` indexing the head of `rest`. -/
def collect_inner (target a : TT) : List TT → Nat → Nat → List (Nat × Nat)
  | [], _, _ => []
  | b :: rest, i, j => pair_combo target a b i j ++ collect_inner target a rest i (j + 1)

/-- Outer loop of the prefilter (lines 116-153): for each candidate, the
pair loop over all later candidates followed by the single-candidate
implication checks. -/
def collect_outer (target : TT) : List TT → Nat → List (Nat × Nat)
  | [], _ => []
  | a :: rest, i =>
    collect_inner target a rest i (i + 1) ++ single_combo target a i
      ++ collect_outer target rest (i + 1)

/-- The collected relation list `maj1pairs`. -/
def collect_maj1pairs (target : TT) (tts : List TT) : List (Nat × Nat) :=
  collect_outer target tts 0

/-- One (i, j) step of the 1-resub search (lines 158-219 for a fixed pair of
recorded relations `p` and `q`): the combination tried is chosen by which
slots hold a fixed constant (second slot < 2). -/
def try_pair (target : TT) (tts : List TT) (p q : Nat × Nat) :
    Option (Nat × Nat × Nat) :=
  let x := get_tt_from_lit p.1 tts
  if p.2 < 2 then
    if p.2 = 0 ∧ target = ttAnd x (get_tt_from_lit q.1 tts) then some (p.1, p.2, q.1)
    else if p.2 = 1 ∧ target = ttOr x (get_tt_from_lit q.1 tts) then some (p.1, p.2, q.1)
    else if q.2 < 2 then none
    else if p.2 = 0 ∧ target = ttAnd x (get_tt_from_lit q.2 tts) then some (p.1, p.2, q.2)
    else if p.2 = 1 ∧ target = ttOr x (get_tt_from_lit q.2 tts) then some (p.1, p.2, q.2)
    else none
  else
    let y := get_tt_from_lit p.2 tts
    if target = ternary_majority x y (get_tt_from_lit q.1 tts) then some (p.1, p.2, q.1)
    else if q.2 < 2 then
      (if q.2 = 0 then (if target = ttAnd x y then some (p.1, p.2, q.2) else none)
       else if q.2 = 1 ∧ target = ttOr x y then some (p.1, p.2, q.2)
       else none)
    else if target = ternary_majority x y (get_tt_from_lit q.2 tts) then some (p.1, p.2, q.2)
    else none

/-- Inner loop of the 1-resub search: relation `p` against every later
recorded relation, in order. -/
def one_resub_inner (target : TT) (tts : List TT) (p : Nat × Nat) :
    List (Nat × Nat) → Option (Nat × Nat × Nat)
  | [] => none
  | q :: rest =>
    match try_pair target tts p q with
    | some g => some g
    | none => one_resub_inner target tts p rest

/-- Outer loop of the 1-resub search (lines 156-220): the first match in
fixed pair-then-pair enumeration order wins. -/
def one_resub (target : TT) (tts : List TT) :
    List (Nat × Nat) → Option (Nat × Nat × Nat)
  | [] => none
  | p :: rest =>
    match one_resub_inner target tts p rest with
    | some g => some g
    | none => one_resub target tts rest

/-- The engine body after the care-set assertion
(`mig_enumerative_resyn::operator()`, lines 75-227): C-resub, 0-resub, the
MAJ prefilter and the 1-resub search, in that order. -/
def run (target : TT) (tts : List TT) (max_size : Nat) : Option mig_index_list :=
  let il : mig_index_list := ⟨tts.length, [], []⟩
  let ntarget := ttNot target
  if is_const0 target then some (il.add_output 0)
  else if is_const0 ntarget then some (il.add_output 1)
  else
    match zero_resub target ntarget tts 0 with
    | some lit => some (il.add_output lit)
    | none =>
      if max_size = 0 then none
      else
        let maj1pairs := collect_maj1pairs target tts
        match one_resub target tts maj1pairs with
        | some (a, b, c) =>
          let r := il.add_maj a b c
          some (r.1.add_output r.2)
        | none =>
          if max_size = 1 then none
          else none

/-- The full entry point including the care-set precondition of line 73:
`assert( is_const0( ~care ) )`.  A failing C `assert` aborts the program,
modelled as `Except.error`. -/
def run_checked (target care : TT) (tts : List TT) (max_size : Nat) :
    Except Unit (Option mig_index_list) :=
  if is_const0 (ttNot care) then Except.ok (run target tts max_size)
  else Except.error ()


/-- Shape helper for the correctness proofs: a literal addressing one of the
`k` candidates. -/
def valid_input_lit (k lit : Nat) : Prop := ∃ v, v < k ∧ ∃ inv, lit = make_lit v inv

/-- Shape of a recorded relation of the prefilter: the first slot addresses
a candidate, the second is a fixed constant (< 2) or addresses a candidate. -/
def good_pair (k : Nat) (pr : Nat × Nat) : Prop :=
  valid_input_lit k pr.1 ∧ (pr.2 < 2 ∨ valid_input_lit k pr.2)

end mig_enumerative


/-! ## Logic networks

Shallow model of the generic network contract (spec section 4.1): nodes are
natural-number identifiers, node 0 is the constant-false node, and every
fan-in of a node has a strictly smaller identifier (mockturtle's storage
invariant: gates are created after their fan-ins, which is what makes the
recursive traversals of the C++ terminate).  Fan-in lists store the nodes
of the fan-in signals (`get_node`); signal polarities are absorbed into the
generic per-gate semantics `gate_fn`, which the concrete network type
supplies. -/

structure Network where
  size : Nat
  fanins : Nat → List Nat
  is_pi : Nat → Bool
  is_dead : Nat → Bool
  fanout_size : Nat → Nat
  gates : List Nat
  outputs : List Nat
  gate_fn : Nat → List Bool → Bool
  fanin_lt : ∀ n m, m ∈ fanins n → m < n

/-- Fan-ins as iterated by `foreach_fanin`, which returns immediately for
the constant and for combinational inputs. -/
def faninsOf (N : Network) (n : Nat) : List Nat :=
  if n = 0 ∨ N.is_pi n then [] else N.fanins n

/-- Simulation semantics of a network: the value of node `n` under the
primary-input assignment `env` (the generic gate semantics `gate_fn`
combines the fan-in values). -/
def simulate (N : Network) (env : Nat → Bool) (n : Nat) : Bool :=
  if n = 0 then false
  else if N.is_pi n then env n
  else N.gate_fn n ((N.fanins n).attach.map (fun f => simulate N env f.1))
termination_by n
decreasing_by exact N.fanin_lt n f.1 f.2

/-! ## Refactoring driver

Shallow embedding of `refactor` / `detail::refactor_impl`
(`algorithms/refactor.hpp`, lines 78-167).  The stopwatch, progress bar and
statistics are purely observational and outside the embedded state; the
reconvergence-driven cut computation lives in `reconv_cut2.hpp`, which is
not under src/, so it is passed in as a function parameter. -/

/-- Parameters of the driver (`refactor_params`, lines 43-56). -/
structure refactor_params where
  max_pis : Nat := 8
  skip_fanout_limit_for_roots : Nat := 1000
  progress : Bool := false
  verbose : Bool := true

/-- Per-node evaluation step (`detail::refactor_impl::node_refactor`,
lines 127-130): its body is the comment `/* not implemented */`, so it
returns the network unchanged. -/
def node_refactor (ntk : Network) (r : Nat) (leaves : List Nat) : Network :=
  ntk

/-- The sweep (`detail::refactor_impl::run`, lines 90-125): walk the gates
with their indices, terminating when the index reaches the size snapshot
(`return false /* terminate */`), skipping dead nodes and nodes whose
fan-out exceeds the configured limit (`return true /* next */`), computing
a reconvergence-driven cut and invoking `node_refactor` otherwise.
`cut_fn` is the external cut collaborator, modelled from the spec
(section 6): given a max-leaf bound, a network and a pivot node it returns
an ordered leaf list; it does not mutate the network. -/
def refactor_step (ps : refactor_params) (cut_fn : Nat → Network → Nat → List Nat)
    (size : Nat) (acc : Network × Bool) (ni : Nat × Nat) : Network × Bool :=
  if acc.2 then acc
  else if size ≤ ni.1 then (acc.1, true)
  else if acc.1.is_dead ni.2 then acc
  else if ps.skip_fanout_limit_for_roots < acc.1.fanout_size ni.2 then acc
  else (node_refactor acc.1 ni.2 (cut_fn ps.max_pis acc.1 ni.2), false)

/-- The whole sweep: fold the per-gate state machine over the gate list
with indices, starting from the size snapshot taken at sweep start. -/
def refactor_run (ntk : Network) (ps : refactor_params)
    (cut_fn : Nat → Network → Nat → List Nat) : Network :=
  (ntk.gates.enum.foldl (refactor_step ps cut_fn ntk.size) (ntk, false)).1

/-- Entry point (`refactor`, lines 151-167); reporting is observational. -/
def refactor (ntk : Network) (ps : refactor_params)
    (cut_fn : Nat → Network → Nat → List Nat) : Network :=
  refactor_run ntk ps cut_fn

/-- Example network for the driver theorems: constant 0, primary inputs
1 and 2, one AND-like gate 3 = g(1,2) driving the single output. -/
def exNet : Network where
  size := 4
  fanins := fun n => if n = 3 then [1, 2] else []
  is_pi := fun n => n = 1 ∨ n = 2
  is_dead := fun _ => false
  fanout_size := fun _ => 1
  gates := [3]
  outputs := [3]
  gate_fn := fun _ vs => vs.all id
  fanin_lt := by
    intro n m h
    simp only [] at h
    split_ifs at h with h1 <;> simp at h <;> omega



/-! ## Cone-of-influence view

Shallow embedding of `coi_view` (`views/coi_view.hpp`).  The view state
holds the scratch node set `_nodes`, the partition `_leaves` / `_inner`,
the topological order `_topo`, the three-color marking `_colors` and the
node-to-index map `_node_to_index` (an insertion-ordered association list
standing for the hash map: only lookup, `emplace` and `operator[]` are
used).  The underlying network offers one constant node (node 0, as in the
AIG instantiation of the tests), so `_num_constants = 1`.

The bool-returning fan-in lambda of `collect_recurse` (lines 184-190) runs
under `foreach_element`'s early-exit convention: returning `false`
terminates the remaining iteration (compare `refactor.hpp` lines 102 and
107, `return false; /* terminate */` and `return true; /* next */`).  The
embedding reproduces this faithfully: when a fan-in is already collected,
the remaining fan-ins of the same node are not visited. -/

/-- Lookup in the node-to-index association list (first match). -/
def mapLookup (m : List (Nat × Nat)) (k : Nat) : Option Nat :=
  match m with
  | [] => none
  | e :: rest => if e.1 = k then some e.2 else mapLookup rest k

/-- Map `emplace`: inserts only if the key is not yet present. -/
def mapEmplace (m : List (Nat × Nat)) (k v : Nat) : List (Nat × Nat) :=
  match mapLookup m k with
  | some _ => m
  | none => m ++ [(k, v)]

/-- Map `operator[]`: returns the mapped value, default-inserting the value
0 (`uint32_t{}`) for an absent key. -/
def mapBracket (m : List (Nat × Nat)) (k : Nat) : Nat × List (Nat × Nat) :=
  match mapLookup m k with
  | some v => (v, m)
  | none => (0, m ++ [(k, 0)])

/-- Map `emplace` of a list of keys in order, each with value
`_node_to_index.size()` at its own insertion time. -/
def mapEmplaceAll (m : List (Nat × Nat)) (ks : List Nat) : List (Nat × Nat) :=
  ks.foldl (fun m2 k => mapEmplace m2 k m2.length) m

mutual

/-- Reachability collection (`coi_view::collect_recurse`, lines 172-191):
constants are skipped, a primary input is recorded if new, and for a gate
the fan-ins are visited in order, each new fan-in being recorded and
recursed into -- with the early-exit quirk that an already-recorded fan-in
stops the iteration over the remaining fan-ins of this node. -/
def collectRec (N : Network) (n : Nat) (nodes : List Nat) : List Nat :=
  if n = 0 then nodes
  else if N.is_pi n then (if n ∈ nodes then nodes else nodes ++ [n])
  else collectGo N n (N.fanins n) (fun f hf => N.fanin_lt n f hf) nodes
termination_by (n, (N.fanins n).length + 1)
decreasing_by exact Prod.Lex.right n (by omega)

/-- The fan-in loop of `collect_recurse` over the pending fan-ins. -/
def collectGo (N : Network) (n : Nat) (pending : List Nat)
    (hp : ∀ f ∈ pending, f < n) (nodes : List Nat) : List Nat :=
  match pending with
  | [] => nodes
  | f :: fs =>
    if f ∈ nodes then nodes
    else collectGo N n fs (fun x hx => hp x (List.mem_cons_of_mem f hx))
        (collectRec N f (nodes ++ [f]))
termination_by (n, pending.length)
decreasing_by
  all_goals first
    | exact Prod.Lex.left _ _ (hp f (List.mem_cons_self f fs))
    | exact Prod.Lex.right n (by simp)

end

/-- Collection over all pivots (`coi_view::update`, lines 164-167). -/
def collectAll (N : Network) (pivots : List Nat) (nodes : List Nat) : List Nat :=
  pivots.foldl (fun acc p => collectRec N p acc) nodes

theorem faninsOf_lt (N : Network) (n : Nat) : ∀ f ∈ faninsOf N n, f < n := by
  intro f hf
  unfold faninsOf at hf
  split at hf
  · simp at hf
  · exact N.fanin_lt n f hf

mutual

/-- Depth-first topological sort (`coi_view::topo_sort_rec`, lines
246-266), with the state `_node_to_index` / `_colors` / `_topo` threaded as
`m` / `cs` / `tp`: look the node up in the map (`operator[]`,
default-inserting index 0), return if permanently marked, otherwise mark
temporarily, visit the fan-ins (the underlying network's `foreach_fanin`,
which is empty for constants and combinational inputs), mark permanently
and append to `_topo`. -/
def topoRec (N : Network) (n : Nat) (m : List (Nat × Nat)) (cs : List Nat)
    (tp : List Nat) : List (Nat × Nat) × List Nat × List Nat :=
  let b := mapBracket m n
  if cs.getD b.1 0 = 2 then (b.2, cs, tp)
  else
    let r := topoGo N n (faninsOf N n) (faninsOf_lt N n) b.2 (cs.set b.1 1) tp
    (r.1, r.2.1.set b.1 2, r.2.2 ++ [n])
termination_by (n, (faninsOf N n).length + 1)
decreasing_by exact Prod.Lex.right n (by omega)

/-- The fan-in loop of `topo_sort_rec` (full iteration, no early exit). -/
def topoGo (N : Network) (n : Nat) (pending : List Nat)
    (hp : ∀ f ∈ pending, f < n) (m : List (Nat × Nat)) (cs : List Nat)
    (tp : List Nat) : List (Nat × Nat) × List Nat × List Nat :=
  match pending with
  | [] => (m, cs, tp)
  | f :: fs =>
    let r := topoRec N f m cs tp
    topoGo N n fs (fun x hx => hp x (List.mem_cons_of_mem f hx)) r.1 r.2.1 r.2.2
termination_by (n, pending.length)
decreasing_by
  all_goals first
    | exact Prod.Lex.left _ _ (hp f (List.mem_cons_self f fs))
    | exact Prod.Lex.right n (by simp)

end

/-- Topological sort from every pivot (lines 239-240). -/
def topoAll (N : Network) (pivots : List Nat) (m : List (Nat × Nat))
    (cs : List Nat) (tp : List Nat) : List (Nat × Nat) × List Nat × List Nat :=
  pivots.foldl (fun acc p => topoRec N p acc.1 acc.2.1 acc.2.2) (m, cs, tp)

/-- One selection pass of `compute_sets`' partition loop (lines 197-215):
walk the sorted node list, skip the constant, and append each selected node
unless it equals the last appended one (the adjacent-duplicate guard
`_leaves.empty() || _leaves.back() != n`).  The C++ fills `_leaves` and
`_inner` in a single loop; the two selections are independent, so they are
modelled as two passes with complementary selectors. -/
def buildSel (sel : Nat → Bool) : List Nat → List Nat → List Nat
  | [], acc => acc
  | n :: rest, acc =>
    if n = 0 then buildSel sel rest acc
    else if sel n then
      (if acc.getLast? = some n then buildSel sel rest acc
       else buildSel sel rest (acc ++ [n]))
    else buildSel sel rest acc

/-- View state: `_nodes`, `_leaves`, `_inner`, `_topo`, `_colors` and
`_node_to_index`. -/
structure CoiState where
  nodes : List Nat
  leaves : List Nat
  inner : List Nat
  topo : List Nat
  colors : List Nat
  n2i : List (Nat × Nat)
deriving DecidableEq

/-! The `compute_sets` member (lines 193-244) is split into named
intermediate values: sort `_nodes`, partition into leaves and inner nodes,
index leaves, inner nodes and then the appended pivots, initialize the
colors (leaves and the constant permanently marked), run the topological
sort from every pivot, and check the assertion
`_inner.size() == _topo.size()` (`none` models the failing `assert`);
finally `_inner = _topo`. -/

/-- Line 195: `std::sort( _nodes.begin(), _nodes.end() )`. -/
def coiSortedNodes (st : CoiState) : List Nat :=
  List.insertionSort (· ≤ ·) st.nodes

/-- Lines 197-215, `_leaves`: combinational inputs among the sorted nodes. -/
def coiLeaves (N : Network) (st : CoiState) : List Nat :=
  buildSel (fun n => N.is_pi n) (coiSortedNodes st) []

/-- Lines 197-215, `_inner` before the pivots are appended. -/
def coiInner0 (N : Network) (st : CoiState) : List Nat :=
  buildSel (fun n => !N.is_pi n) (coiSortedNodes st) []

/-- Lines 217-229: `emplace` the leaves, the inner nodes and the pivots
into `_node_to_index`, each with the map size at its insertion time. -/
def coiMap3 (N : Network) (pivots : List Nat) (st : CoiState) :
    List (Nat × Nat) :=
  mapEmplaceAll
    (mapEmplaceAll (mapEmplaceAll st.n2i (coiLeaves N st)) (coiInner0 N st))
    pivots

/-- Line 234: `_size`, with the pivots already appended to `_inner` and
`_num_constants = 1`. -/
def coiSz (N : Network) (pivots : List Nat) (st : CoiState) : Nat :=
  1 + (coiInner0 N st ++ pivots).length + (coiLeaves N st).length

/-- Lines 235-237: color vector of `_size` zeros, leaves marked 2 at their
map index, then the constant marked 2. -/
def coiColors (N : Network) (pivots : List Nat) (st : CoiState) : List Nat :=
  ((coiLeaves N st).foldl
    (fun cs l => cs.set ((mapLookup (coiMap3 N pivots st) l).getD 0) 2)
    (List.replicate (coiSz N pivots st) 0)).set 0 2

/-- Lines 239-240: the topological sort from every pivot. -/
def coiTopo (N : Network) (pivots : List Nat) (st : CoiState) :
    List (Nat × Nat) × List Nat × List Nat :=
  topoAll N pivots (coiMap3 N pivots st) (coiColors N pivots st) []

/-- Lines 193-244 assembled, with the assertion of line 242 modelled as the
`none` case and the assignment `_inner = _topo` of line 243. -/
def computeSets (N : Network) (pivots : List Nat) (st : CoiState) :
    Option CoiState :=
  if (coiInner0 N st ++ pivots).length = (coiTopo N pivots st).2.2.length then
    some { nodes := coiSortedNodes st, leaves := coiLeaves N st,
           inner := (coiTopo N pivots st).2.2, topo := (coiTopo N pivots st).2.2,
           colors := (coiTopo N pivots st).2.1, n2i := (coiTopo N pivots st).1 }
  else none

/-- The state right after the constructor's initialization (lines 63-80):
the constant node is indexed first; with a single constant node,
`_num_constants` stays 1. -/
def coiInit : CoiState :=
  { nodes := [], leaves := [], inner := [], topo := [], colors := [],
    n2i := [(0, 0)] }

/-- The `update` member (lines 159-170): clear `_leaves` and `_inner`
(`_nodes` and `_node_to_index` persist), collect from every pivot, and
recompute the sets. -/
def coiUpdate (N : Network) (pivots : List Nat) (st : CoiState) :
    Option CoiState :=
  computeSets N pivots
    { st with leaves := [], inner := [], nodes := collectAll N pivots st.nodes }

/-- View construction (the constructor, lines 63-82). -/
def coiView (N : Network) (pivots : List Nat) : Option CoiState :=
  coiUpdate N pivots coiInit

/-- Exposed surface `size()` (line 84), with `_num_constants = 1`. -/
def CoiState.coi_size (st : CoiState) : Nat :=
  1 + st.leaves.length + st.inner.length

/-- Exposed surface `num_pis()` (line 87). -/
def CoiState.num_pis (st : CoiState) : Nat := st.leaves.length

/-- Exposed surface `num_gates()` (line 89). -/
def CoiState.num_gates (st : CoiState) : Nat := st.inner.length

/-- Exposed surface `node_to_index` (line 157; `.at` on the map). -/
def CoiState.node_to_index (st : CoiState) (n : Nat) : Option Nat :=
  mapLookup st.n2i n

/-- Exposed surface `foreach_node` order (lines 137-142): constants, then
leaves, then inner nodes. -/
def CoiState.node_order (st : CoiState) : List Nat :=
  0 :: st.leaves ++ st.inner

/-- Ancestor relation on a network: `a` is an ancestor of `d` when a chain
of fan-in edges leads from `d` back to `a`. -/
def is_ancestor (N : Network) (a d : Nat) : Prop :=
  Relation.TransGen (fun u v => u ∈ N.fanins v) a d

/-- The 5-PI AIG of the coi-view test (`test/views/coi_view.cpp`): inputs
1..5, gates f1 = 6 = (1,2), f2 = 7 = (3,4), f3 = 8 = (6,7), f4 = 9 = (5,7),
f5 = 10 = (6,8), f6 = 11 = (7,8), f7 = 12 = (10,11), f8 = 13 = (9,12). -/
def testNet : Network where
  size := 14
  fanins := fun n =>
    if n = 6 then [1, 2] else if n = 7 then [3, 4]
    else if n = 8 then [6, 7] else if n = 9 then [5, 7]
    else if n = 10 then [6, 8] else if n = 11 then [7, 8]
    else if n = 12 then [10, 11] else if n = 13 then [9, 12] else []
  is_pi := fun n => 1 ≤ n ∧ n ≤ 5
  is_dead := fun _ => false
  fanout_size := fun _ => 1
  gates := [6, 7, 8, 9, 10, 11, 12, 13]
  outputs := [13]
  gate_fn := fun _ vs => vs.all id
  fanin_lt := by
    intro n m h
    simp only [] at h
    split_ifs at h with h1 h2 h3 h4 h5 h6 h7 h8 <;> simp at h <;> omega

/-- Network exhibiting the collection early-exit: constant 0, primary
inputs 1 and 2, gate 3 = g(1,2), gate 4 = g(1,3); the cone of pivot 4
contains input 2, but collection from 4 reaches gate 3 after input 1 is
already recorded, and the `return false` of `collect_recurse` then stops
the fan-in iteration of gate 3 before input 2 is seen. -/
def bugNet : Network where
  size := 5
  fanins := fun n => if n = 3 then [1, 2] else if n = 4 then [1, 3] else []
  is_pi := fun n => n = 1 ∨ n = 2
  is_dead := fun _ => false
  fanout_size := fun _ => 1
  gates := [3, 4]
  outputs := [4]
  gate_fn := fun _ vs => vs.all id
  fanin_lt := by
    intro n m h
    simp only [] at h
    split_ifs at h with h1 h2 <;> simp at h <;> omega


/-- The view state produced for `testNet` with pivots {8, 10} (checked
against the expectations of `test/views/coi_view.cpp`). -/
def testSt : CoiState :=
  { nodes := [1, 2, 3, 4, 6, 7], leaves := [1, 2, 3, 4],
    inner := [6, 7, 8, 10], topo := [6, 7, 8, 10],
    colors := [2, 2, 2, 2, 2, 2, 2, 2, 2],
    n2i := [(0, 0), (1, 1), (2, 2), (3, 3), (4, 4), (6, 5), (7, 6),
            (8, 7), (10, 8)] }


/-- `ZeroExt m m2`: `m2` extends `m` by entries that were default-inserted
by `operator[]`: fresh keys, all mapped to 0. -/
def ZeroExt (m m2 : List (Nat × Nat)) : Prop :=
  ∃ d, m2 = m ++ d ∧ ∀ e ∈ d, e.2 = 0 ∧ e.1 ∉ m.map Prod.fst

/-- A node is saturated in a node set when re-collecting it adds nothing:
the constant, an already-collected input, a gate with no fan-ins, or a gate
whose first fan-in is already collected (the early exit then stops the
whole iteration). -/
def collect_saturated (N : Network) (p : Nat) (S : List Nat) : Prop :=
  p = 0 ∨ (N.is_pi p ∧ p ∈ S) ∨
    (¬ N.is_pi p ∧ (N.fanins p = [] ∨ ∃ f fs, N.fanins p = f :: fs ∧ f ∈ S))

/-- Relation between the map of a first run and the map of a rerun that
already holds, with value 0, the entries the first run will default-insert. -/
def MapSim (ma mb : List (Nat × Nat)) : Prop :=
  ∀ k, mapLookup mb k = mapLookup ma k ∨
    (mapLookup ma k = none ∧ mapLookup mb k = some 0)

/-- Keys paired with consecutive indices starting at `s`. -/
def withIdxFrom : Nat → List Nat → List (Nat × Nat)
  | _, [] => []
  | s, k :: ks => (k, s) :: withIdxFrom (s + 1) ks

/-- Values of the node-to-index map are positions, because each `emplace`
inserts with the map size of its own moment. -/
def PosValued (m : List (Nat × Nat)) : Prop :=
  ∀ (i : Nat) (h : i < m.length), (m.get ⟨i, h⟩).2 = i

/-- Invariant carried through `topo_sort_rec` over the fixed pre-sort map
`M` (keys: constant, leaves, inner nodes, pivots; values: their indices),
the leaf count `nL` and the view size `sz`: the running map only grows by
default-inserted zero entries, the color vector keeps its length, the
constant and leaf slots stay permanently marked, and a slot above the leaf
range is permanently marked exactly when its node is already in `_topo`,
which stays duplicate-free and holds only inner/pivot-indexed nodes. -/
def TInv (M : List (Nat × Nat)) (nL sz : Nat) (m : List (Nat × Nat))
    (cs : List Nat) (tp : List Nat) : Prop :=
  ZeroExt M m ∧ cs.length = sz ∧ tp.Nodup ∧
  (∀ i, i ≤ nL → cs.getD i 0 = 2) ∧
  (∀ k ∈ tp, ∃ v, mapLookup M k = some v ∧ nL < v) ∧
  (∀ k v, mapLookup M k = some v → nL < v → (cs.getD v 0 = 2 ↔ k ∈ tp))



/-! ## Basic truth-table lemmas -/


namespace kitty

theorem ttNot_length (a : TT) : (ttNot a).length = a.length :=
  List.length_map a _

theorem ttNot_ttNot (a : TT) : ttNot (ttNot a) = a := by
  induction a with
  | nil => rfl
  | cons b bs ih => simp only [ttNot, List.map_cons, Bool.not_not] at ih ⊢; rw [ih]

theorem ttNot_replicate_false (w : Nat) :
    ttNot (List.replicate w false) = List.replicate w true := by
  simp [ttNot]

theorem is_const0_iff (a : TT) :
    is_const0 a = true ↔ a = List.replicate a.length false := by
  induction a with
  | nil => simp [is_const0]
  | cons b bs ih =>
    simp only [is_const0, List.all_cons, Bool.and_eq_true, List.length_cons,
      List.replicate, List.cons.injEq] at ih ⊢
    cases b <;> simp_all [is_const0]

theorem ttAnd_length (a b : TT) : (ttAnd a b).length = min a.length b.length := by
  simp [ttAnd]

theorem ttOr_length (a b : TT) : (ttOr a b).length = min a.length b.length := by
  simp [ttOr]

theorem ternary_majority_mid_false (a : TT) :
    ∀ b : TT, a.length = b.length →
    ternary_majority a (List.replicate a.length false) b = ttAnd a b := by
  induction a with
  | nil =>
    intro b hb
    cases b with
    | nil => rfl
    | cons y ys => simp at hb
  | cons x xs ih =>
    intro b hb
    cases b with
    | nil => simp at hb
    | cons y ys =>
      simp only [List.length_cons, List.replicate_succ, ternary_majority, ttAnd,
        List.zipWith_cons_cons, List.cons.injEq]
      refine ⟨by cases x <;> cases y <;> rfl, ?_⟩
      have := ih ys (by simpa using hb)
      simpa [ttAnd] using this

theorem ternary_majority_mid_true (a : TT) :
    ∀ b : TT, a.length = b.length →
    ternary_majority a (List.replicate a.length true) b = ttOr a b := by
  induction a with
  | nil =>
    intro b hb
    cases b with
    | nil => rfl
    | cons y ys => simp at hb
  | cons x xs ih =>
    intro b hb
    cases b with
    | nil => simp at hb
    | cons y ys =>
      simp only [List.length_cons, List.replicate_succ, ternary_majority, ttOr,
        List.zipWith_cons_cons, List.cons.injEq]
      refine ⟨by cases x <;> cases y <;> rfl, ?_⟩
      have := ih ys (by simpa using hb)
      simpa [ttOr] using this

theorem ternary_majority_last_false (a : TT) :
    ∀ b : TT, a.length = b.length →
    ternary_majority a b (List.replicate a.length false) = ttAnd a b := by
  induction a with
  | nil =>
    intro b hb
    cases b with
    | nil => rfl
    | cons y ys => simp at hb
  | cons x xs ih =>
    intro b hb
    cases b with
    | nil => simp at hb
    | cons y ys =>
      simp only [List.length_cons, List.replicate_succ, ternary_majority, ttAnd,
        List.zipWith_cons_cons, List.cons.injEq]
      refine ⟨by cases x <;> cases y <;> rfl, ?_⟩
      have := ih ys (by simpa using hb)
      simpa [ttAnd] using this

theorem ternary_majority_last_true (a : TT) :
    ∀ b : TT, a.length = b.length →
    ternary_majority a b (List.replicate a.length true) = ttOr a b := by
  induction a with
  | nil =>
    intro b hb
    cases b with
    | nil => rfl
    | cons y ys => simp at hb
  | cons x xs ih =>
    intro b hb
    cases b with
    | nil => simp at hb
    | cons y ys =>
      simp only [List.length_cons, List.replicate_succ, ternary_majority, ttOr,
        List.zipWith_cons_cons, List.cons.injEq]
      refine ⟨by cases x <;> cases y <;> rfl, ?_⟩
      have := ih ys (by simpa using hb)
      simpa [ttOr] using this

theorem is_const0_ttNot_iff (care : TT) :
    is_const0 (ttNot care) = true ↔ ∀ b ∈ care, b = true := by
  induction care with
  | nil => simp [is_const0, ttNot]
  | cons b bs ih =>
    simp only [is_const0, ttNot, List.map_cons, List.all_cons,
      Bool.and_eq_true, List.mem_cons] at ih ⊢
    cases b <;> simp_all

theorem ternary_majority_length (a b c : TT) :
    (ternary_majority a b c).length = min a.length (min b.length c.length) := by
  induction a generalizing b c with
  | nil => cases b <;> cases c <;> simp [ternary_majority]
  | cons x xs ih =>
    cases b with
    | nil => simp [ternary_majority]
    | cons y ys =>
      cases c with
      | nil => simp [ternary_majority]
      | cons z zs => simp [ternary_majority, ih]; omega

end kitty

/-! ## Engine lemmas and claim theorems -/

namespace mig_enumerative

open kitty

theorem make_lit_div (v : Nat) (inv : Bool) : make_lit v inv / 2 = v + 1 := by
  cases inv <;> simp [make_lit] <;> omega

theorem make_lit_mod (v : Nat) (inv : Bool) :
    make_lit v inv % 2 = if inv then 1 else 0 := by
  cases inv <;> simp [make_lit] <;> omega

theorem two_le_make_lit (v : Nat) (inv : Bool) : 2 ≤ make_lit v inv := by
  cases inv <;> simp [make_lit] <;> omega

theorem get_tt_from_lit_make (v : Nat) (inv : Bool) (tts : List TT) :
    get_tt_from_lit (make_lit v inv) tts =
      if inv then ttNot (tts.getD v []) else tts.getD v [] := by
  cases inv <;> simp [get_tt_from_lit, make_lit_div, make_lit_mod]

theorem getD_length_of_mem {tts : List TT} {w v : Nat}
    (hw : ∀ t ∈ tts, t.length = w) (hv : v < tts.length) :
    (tts.getD v []).length = w := by
  rw [List.getD_eq_getElem?_getD, List.getElem?_eq_getElem hv]
  exact hw _ (List.getElem_mem hv)

theorem get_tt_from_lit_length {tts : List TT} {w lit : Nat}
    (hl : valid_input_lit tts.length lit) (hw : ∀ t ∈ tts, t.length = w) :
    (get_tt_from_lit lit tts).length = w := by
  obtain ⟨v, hv, inv, rfl⟩ := hl
  rw [get_tt_from_lit_make]
  have h := getD_length_of_mem hw hv
  cases inv <;> simp only [if_true, if_false, Bool.false_eq_true, ttNot_length, h]

theorem eval_lit_make (w : Nat) (tts gv : List TT) (v : Nat) (inv : Bool)
    (hv : v < tts.length) :
    eval_lit w tts gv (make_lit v inv) = get_tt_from_lit (make_lit v inv) tts := by
  rw [get_tt_from_lit_make]
  simp only [eval_lit, make_lit_div, make_lit_mod]
  have h1 : ¬ (v + 1 = 0) := by omega
  have h2 : v + 1 ≤ tts.length := by omega
  cases inv <;> simp [h1, h2]

theorem eval_lit_valid (w : Nat) (tts gv : List TT) (lit : Nat)
    (hl : valid_input_lit tts.length lit) :
    eval_lit w tts gv lit = get_tt_from_lit lit tts := by
  obtain ⟨v, hv, inv, rfl⟩ := hl
  exact eval_lit_make w tts gv v inv hv

theorem eval_lit_zero (w : Nat) (tts gv : List TT) :
    eval_lit w tts gv 0 = List.replicate w false := by
  simp [eval_lit]

theorem eval_lit_one (w : Nat) (tts gv : List TT) :
    eval_lit w tts gv 1 = List.replicate w true := by
  simp [eval_lit, ttNot_replicate_false]

theorem zero_resub_some (target ntarget : TT) :
    ∀ (l : List TT) (i lit : Nat), zero_resub target ntarget l i = some lit →
    ∃ j, j < l.length ∧
      ((lit = make_lit (i + j) false ∧ l.getD j [] = target) ∨
       (lit = make_lit (i + j) true ∧ l.getD j [] = ntarget)) := by
  intro l
  induction l with
  | nil => intro i lit h; simp [zero_resub] at h
  | cons t rest ih =>
    intro i lit h
    rw [zero_resub] at h
    by_cases h1 : target = t
    · simp only [if_pos h1, Option.some.injEq] at h
      exact ⟨0, by simp, Or.inl ⟨h.symm, h1.symm⟩⟩
    · simp only [if_neg h1] at h
      by_cases h2 : ntarget = t
      · simp only [if_pos h2, Option.some.injEq] at h
        exact ⟨0, by simp, Or.inr ⟨h.symm, h2.symm⟩⟩
      · simp only [if_neg h2] at h
        obtain ⟨j, hj, hcase⟩ := ih (i + 1) lit h
        refine ⟨j + 1, by simpa using hj, ?_⟩
        have : i + 1 + j = i + (j + 1) := by omega
        rw [this] at hcase
        simpa using hcase

theorem pair_combo_shape {target a b : TT} {i j k : Nat} (hi : i < k) (hj : j < k) :
    ∀ pr ∈ pair_combo target a b i j, good_pair k pr := by
  intro pr hpr
  unfold pair_combo at hpr
  split at hpr <;>
    [skip; split at hpr <;>
      [skip; split at hpr <;>
        [skip; split at hpr <;> [skip; simp at hpr]]]] <;>
  · simp only [List.mem_singleton] at hpr
    subst hpr
    exact ⟨⟨i, hi, _, rfl⟩, Or.inr ⟨j, hj, _, rfl⟩⟩

theorem single_combo_shape {target a : TT} {i k : Nat} (hi : i < k) :
    ∀ pr ∈ single_combo target a i, good_pair k pr := by
  intro pr hpr
  unfold single_combo at hpr
  split at hpr <;>
    [skip; split at hpr <;>
      [skip; split at hpr <;>
        [skip; split at hpr <;> [skip; simp at hpr]]]] <;>
  · simp only [List.mem_singleton] at hpr
    subst hpr
    exact ⟨⟨i, hi, _, rfl⟩, Or.inl (by omega)⟩

theorem collect_inner_shape {target a : TT} {k : Nat} :
    ∀ (rest : List TT) (i j : Nat), i < k → j + rest.length ≤ k →
    ∀ pr ∈ collect_inner target a rest i j, good_pair k pr := by
  intro rest
  induction rest with
  | nil => intro i j _ _ pr hpr; simp [collect_inner] at hpr
  | cons b bs ih =>
    intro i j hi hj pr hpr
    rw [collect_inner, List.mem_append] at hpr
    rcases hpr with hpr | hpr
    · exact pair_combo_shape hi (by simp at hj; omega) pr hpr
    · exact ih i (j + 1) hi (by simp at hj; omega) pr hpr

theorem collect_outer_shape {target : TT} {k : Nat} :
    ∀ (l : List TT) (i : Nat), i + l.length ≤ k →
    ∀ pr ∈ collect_outer target l i, good_pair k pr := by
  intro l
  induction l with
  | nil => intro i _ pr hpr; simp [collect_outer] at hpr
  | cons a rest ih =>
    intro i hi pr hpr
    rw [collect_outer, List.mem_append, List.mem_append] at hpr
    have hik : i < k := by simp at hi; omega
    rcases hpr with (hpr | hpr) | hpr
    · exact collect_inner_shape rest i (i + 1) hik (by simp at hi; omega) pr hpr
    · exact single_combo_shape hik pr hpr
    · exact ih (i + 1) (by simp at hi; omega) pr hpr

theorem collect_maj1pairs_shape {target : TT} {tts : List TT} :
    ∀ pr ∈ collect_maj1pairs target tts, good_pair tts.length pr :=
  collect_outer_shape tts 0 (by omega)

theorem one_resub_inner_mem {target : TT} {tts : List TT} {p : Nat × Nat}
    {g : Nat × Nat × Nat} :
    ∀ l : List (Nat × Nat), one_resub_inner target tts p l = some g →
    ∃ q ∈ l, try_pair target tts p q = some g := by
  intro l
  induction l with
  | nil => intro h; simp [one_resub_inner] at h
  | cons q rest ih =>
    intro h
    rw [one_resub_inner] at h
    rcases hq : try_pair target tts p q with _ | g2
    · rw [hq] at h
      obtain ⟨q2, hq2, ht⟩ := ih h
      exact ⟨q2, List.mem_cons_of_mem q hq2, ht⟩
    · rw [hq] at h
      simp only [Option.some.injEq] at h
      exact ⟨q, List.mem_cons_self q rest, by rw [hq, h]⟩

theorem one_resub_mem {target : TT} {tts : List TT} {g : Nat × Nat × Nat} :
    ∀ l : List (Nat × Nat), one_resub target tts l = some g →
    ∃ p ∈ l, ∃ q ∈ l, try_pair target tts p q = some g := by
  intro l
  induction l with
  | nil => intro h; simp [one_resub] at h
  | cons p rest ih =>
    intro h
    rw [one_resub] at h
    rcases hq : one_resub_inner target tts p rest with _ | g2
    · rw [hq] at h
      obtain ⟨p2, hp2, q2, hq2, ht⟩ := ih h
      exact ⟨p2, List.mem_cons_of_mem p hp2, q2, List.mem_cons_of_mem p hq2, ht⟩
    · rw [hq] at h
      simp only [Option.some.injEq] at h
      subst h
      obtain ⟨q2, hq2, ht⟩ := one_resub_inner_mem rest hq
      exact ⟨p, List.mem_cons_self p rest, q2, List.mem_cons_of_mem p hq2, ht⟩

theorem maj_mid_false_w (x y : TT) (w : Nat) (hx : x.length = w) (hy : y.length = w) :
    ternary_majority x (List.replicate w false) y = ttAnd x y := by
  subst hx; exact ternary_majority_mid_false x y (by omega)

theorem maj_mid_true_w (x y : TT) (w : Nat) (hx : x.length = w) (hy : y.length = w) :
    ternary_majority x (List.replicate w true) y = ttOr x y := by
  subst hx; exact ternary_majority_mid_true x y (by omega)

theorem maj_last_false_w (x y : TT) (w : Nat) (hx : x.length = w) (hy : y.length = w) :
    ternary_majority x y (List.replicate w false) = ttAnd x y := by
  subst hx; exact ternary_majority_last_false x y (by omega)

theorem maj_last_true_w (x y : TT) (w : Nat) (hx : x.length = w) (hy : y.length = w) :
    ternary_majority x y (List.replicate w true) = ttOr x y := by
  subst hx; exact ternary_majority_last_true x y (by omega)

theorem try_pair_correct {target : TT} {tts : List TT} {w : Nat}
    (hw : ∀ t ∈ tts, t.length = w)
    {p q : Nat × Nat} (hp : good_pair tts.length p) (hq : good_pair tts.length q)
    {g : Nat × Nat × Nat} (h : try_pair target tts p q = some g) (gv : List TT) :
    target = ternary_majority (eval_lit w tts gv g.1)
      (eval_lit w tts gv g.2.1) (eval_lit w tts gv g.2.2) := by
  have hx : (get_tt_from_lit p.1 tts).length = w := get_tt_from_lit_length hp.1 hw
  have hex : eval_lit w tts gv p.1 = get_tt_from_lit p.1 tts := eval_lit_valid w tts gv p.1 hp.1
  simp only [try_pair] at h
  by_cases hps : p.2 < 2
  · -- first slot of p addresses a candidate, second is a fixed constant
    simp only [if_pos hps] at h
    have hq1 : (get_tt_from_lit q.1 tts).length = w := get_tt_from_lit_length hq.1 hw
    have heq1 : eval_lit w tts gv q.1 = get_tt_from_lit q.1 tts :=
      eval_lit_valid w tts gv q.1 hq.1
    by_cases hc1 : p.2 = 0 ∧ target = ttAnd (get_tt_from_lit p.1 tts) (get_tt_from_lit q.1 tts)
    · simp only [if_pos hc1, Option.some.injEq] at h
      subst h
      simp only [hex, heq1, hc1.1, eval_lit_zero]
      rw [maj_mid_false_w _ _ w hx hq1]
      exact hc1.2
    · simp only [if_neg hc1] at h
      by_cases hc2 : p.2 = 1 ∧ target = ttOr (get_tt_from_lit p.1 tts) (get_tt_from_lit q.1 tts)
      · simp only [if_pos hc2, Option.some.injEq] at h
        subst h
        simp only [hex, heq1, hc2.1, eval_lit_one]
        rw [maj_mid_true_w _ _ w hx hq1]
        exact hc2.2
      · simp only [if_neg hc2] at h
        by_cases hqs : q.2 < 2
        · simp [if_pos hqs] at h
        · simp only [if_neg hqs] at h
          have hq2v : valid_input_lit tts.length q.2 := hq.2.resolve_left hqs
          have hq2 : (get_tt_from_lit q.2 tts).length = w := get_tt_from_lit_length hq2v hw
          have heq2 : eval_lit w tts gv q.2 = get_tt_from_lit q.2 tts :=
            eval_lit_valid w tts gv q.2 hq2v
          by_cases hc3 : p.2 = 0 ∧ target = ttAnd (get_tt_from_lit p.1 tts) (get_tt_from_lit q.2 tts)
          · simp only [if_pos hc3, Option.some.injEq] at h
            subst h
            simp only [hex, heq2, hc3.1, eval_lit_zero]
            rw [maj_mid_false_w _ _ w hx hq2]
            exact hc3.2
          · simp only [if_neg hc3] at h
            by_cases hc4 : p.2 = 1 ∧ target = ttOr (get_tt_from_lit p.1 tts) (get_tt_from_lit q.2 tts)
            · simp only [if_pos hc4, Option.some.injEq] at h
              subst h
              simp only [hex, heq2, hc4.1, eval_lit_one]
              rw [maj_mid_true_w _ _ w hx hq2]
              exact hc4.2
            · simp [if_neg hc4] at h
  · -- p records a candidate pair
    simp only [if_neg hps] at h
    have hpv : valid_input_lit tts.length p.2 := hp.2.resolve_left hps
    have hy : (get_tt_from_lit p.2 tts).length = w := get_tt_from_lit_length hpv hw
    have hey : eval_lit w tts gv p.2 = get_tt_from_lit p.2 tts :=
      eval_lit_valid w tts gv p.2 hpv
    by_cases hc1 : target = ternary_majority (get_tt_from_lit p.1 tts)
        (get_tt_from_lit p.2 tts) (get_tt_from_lit q.1 tts)
    · simp only [if_pos hc1, Option.some.injEq] at h
      subst h
      simp only [hex, hey, eval_lit_valid w tts gv q.1 hq.1]
      exact hc1
    · simp only [if_neg hc1] at h
      by_cases hqs : q.2 < 2
      · simp only [if_pos hqs] at h
        by_cases hq0 : q.2 = 0
        · simp only [if_pos hq0] at h
          by_cases hc2 : target = ttAnd (get_tt_from_lit p.1 tts) (get_tt_from_lit p.2 tts)
          · simp only [if_pos hc2, Option.some.injEq] at h
            subst h
            simp only [hex, hey, hq0, eval_lit_zero]
            rw [maj_last_false_w _ _ w hx hy]
            exact hc2
          · simp [if_neg hc2] at h
        · simp only [if_neg hq0] at h
          by_cases hc3 : q.2 = 1 ∧ target = ttOr (get_tt_from_lit p.1 tts) (get_tt_from_lit p.2 tts)
          · simp only [if_pos hc3, Option.some.injEq] at h
            subst h
            simp only [hex, hey, hc3.1, eval_lit_one]
            rw [maj_last_true_w _ _ w hx hy]
            exact hc3.2
          · simp [if_neg hc3] at h
      · simp only [if_neg hqs] at h
        have hq2v : valid_input_lit tts.length q.2 := hq.2.resolve_left hqs
        by_cases hc4 : target = ternary_majority (get_tt_from_lit p.1 tts)
            (get_tt_from_lit p.2 tts) (get_tt_from_lit q.2 tts)
        · simp only [if_pos hc4, Option.some.injEq] at h
          subst h
          simp only [hex, hey, eval_lit_valid w tts gv q.2 hq2v]
          exact hc4
        · simp [if_neg hc4] at h

theorem eval_gate_lit (w : Nat) (tts : List TT) (gval : TT) (k : Nat)
    (hk : k = tts.length) :
    eval_lit w tts [gval] (2 * (k + 1)) = gval := by
  subst hk
  have hmod : 2 * (tts.length + 1) % 2 = 0 := by omega
  have hdiv : 2 * (tts.length + 1) / 2 = tts.length + 1 := by omega
  simp only [eval_lit, hmod, hdiv]
  have h1 : ¬ (tts.length + 1 = 0) := by omega
  have h2 : ¬ (tts.length + 1 ≤ tts.length) := by omega
  simp [h1, h2]

/-- Claim C1: whenever `mig_enumerative_resyn::operator()` returns an index
list, replaying that list over the candidates' truth tables (literal 0 the
constant false, literal polarity denoting complementation, each gate entry
a 3-input majority) yields exactly the target truth table at the declared
output literal. -/
theorem mig_enumerative_resyn_replay_correct
    (target : TT) (tts : List TT) (max_size : Nat) (il : mig_index_list)
    (hw : ∀ t ∈ tts, t.length = target.length)
    (hr : run target tts max_size = some il) :
    ∃ lit, il.outputs = [lit] ∧
      eval_output target.length il tts lit = target := by
  unfold run at hr
  by_cases h0 : is_const0 target
  · simp only [if_pos h0, Option.some.injEq] at hr
    subst hr
    refine ⟨0, rfl, ?_⟩
    rw [(is_const0_iff target).mp h0]
    simp [eval_output, mig_index_list.add_output, eval_gates, eval_lit_zero]
  · simp only [if_neg h0] at hr
    by_cases h1 : is_const0 (ttNot target)
    · simp only [if_pos h1, Option.some.injEq] at hr
      subst hr
      refine ⟨1, rfl, ?_⟩
      have htn : ttNot target = List.replicate target.length false := by
        have := (is_const0_iff (ttNot target)).mp h1
        rwa [ttNot_length] at this
      have : target = List.replicate target.length true := by
        have h2 := congrArg ttNot htn
        rwa [ttNot_ttNot, ttNot_replicate_false] at h2
      rw [this]
      simp [eval_output, mig_index_list.add_output, eval_gates, eval_lit_one]
    · simp only [if_neg h1] at hr
      rcases hz : zero_resub target (ttNot target) tts 0 with _ | lit
      · rw [hz] at hr
        by_cases hm : max_size = 0
        · simp [if_pos hm] at hr
        · simp only [if_neg hm] at hr
          rcases ho : one_resub target tts (collect_maj1pairs target tts) with _ | g
          · rw [ho] at hr
            by_cases hm1 : max_size = 1 <;> simp [hm1] at hr
          · rw [ho] at hr
            rcases g with ⟨a, b, c⟩
            simp only [Option.some.injEq] at hr
            subst hr
            obtain ⟨p, hpmem, q, hqmem, ht⟩ := one_resub_mem _ ho
            have hp := collect_maj1pairs_shape p hpmem
            have hq := collect_maj1pairs_shape q hqmem
            have hsem := try_pair_correct hw hp hq ht []
            refine ⟨2 * (tts.length + 1), ?_, ?_⟩
            · simp [mig_index_list.add_maj, mig_index_list.add_output]
            · simp only [eval_output, mig_index_list.add_maj, mig_index_list.add_output,
                eval_gates, List.foldl_cons, List.foldl_nil, List.nil_append]
              rw [eval_gate_lit _ _ _ _ rfl]
              exact hsem.symm
      · rw [hz] at hr
        simp only [Option.some.injEq] at hr
        subst hr
        refine ⟨lit, rfl, ?_⟩
        obtain ⟨j, hj, hcase⟩ := zero_resub_some target (ttNot target) tts 0 lit hz
        rcases hcase with ⟨hlit, hgd⟩ | ⟨hlit, hgd⟩
        · subst hlit
          simp only [eval_output, mig_index_list.add_output]
          rw [eval_lit_make _ _ _ _ _ (by simpa using hj), get_tt_from_lit_make]
          simpa using hgd
        · subst hlit
          simp only [eval_output, mig_index_list.add_output]
          rw [eval_lit_make _ _ _ _ _ (by simpa using hj), get_tt_from_lit_make]
          simp only [Nat.zero_add, if_true]
          rw [hgd, ttNot_ttNot]

/-- Claim C7: the engine is a pure function of the target, the candidate
truth tables (in order) and the size budget: equal inputs give bit-identical
results. -/
theorem mig_enumerative_resyn_deterministic
    (t1 t2 : TT) (tts1 tts2 : List TT) (m1 m2 : Nat)
    (ht : t1 = t2) (hc : tts1 = tts2) (hm : m1 = m2) :
    run t1 tts1 m1 = run t2 tts2 m2 := by
  subst ht; subst hc; subst hm; rfl

/-- Claim C8: the care-set precondition of line 73 is fatal exactly for care
sets with a zero bit; with an all-true care set the assertion is unreachable
and the engine proceeds normally. -/
theorem mig_enumerative_resyn_care_assert
    (target care : TT) (tts : List TT) (m : Nat) :
    ((∃ b ∈ care, b = false) → run_checked target care tts m = Except.error ()) ∧
    ((∀ b ∈ care, b = true) →
      run_checked target care tts m = Except.ok (run target tts m)) := by
  constructor
  · rintro ⟨b, hb, hbf⟩
    have hnc : ¬ (is_const0 (ttNot care) = true) := by
      rw [is_const0_ttNot_iff]
      intro hall
      have := hall b hb
      rw [hbf] at this
      simp at this
    simp [run_checked, hnc]
  · intro hall
    simp [run_checked, (is_const0_ttNot_iff care).mpr hall]

/-- Claim C10: the engine only ever emits zero-gate or one-gate index lists,
and beyond distinguishing budget 0 the size budget is irrelevant: every
`max_size >= 1` behaves like `max_size = 1`. -/
theorem mig_enumerative_resyn_at_most_one_gate
    (target : TT) (tts : List TT) (m : Nat) :
    (∀ il, run target tts m = some il → il.gates.length ≤ 1) ∧
    (1 ≤ m → run target tts m = run target tts 1) := by
  constructor
  · intro il hr
    unfold run at hr
    by_cases h0 : is_const0 target
    · simp only [if_pos h0, Option.some.injEq] at hr
      subst hr; simp [mig_index_list.add_output]
    · simp only [if_neg h0] at hr
      by_cases h1 : is_const0 (ttNot target)
      · simp only [if_pos h1, Option.some.injEq] at hr
        subst hr; simp [mig_index_list.add_output]
      · simp only [if_neg h1] at hr
        rcases hz : zero_resub target (ttNot target) tts 0 with _ | lit
        · rw [hz] at hr
          by_cases hm0 : m = 0
          · simp [hm0] at hr
          · simp only [if_neg hm0] at hr
            rcases ho : one_resub target tts (collect_maj1pairs target tts) with _ | g
            · rw [ho] at hr
              by_cases hm1 : m = 1 <;> simp [hm1] at hr
            · rw [ho] at hr
              rcases g with ⟨a, b, c⟩
              simp only [Option.some.injEq] at hr
              subst hr
              simp [mig_index_list.add_maj, mig_index_list.add_output]
        · rw [hz] at hr
          simp only [Option.some.injEq] at hr
          subst hr; simp [mig_index_list.add_output]
  · intro hm
    unfold run
    by_cases h0 : is_const0 target
    · simp [h0]
    · by_cases h1 : is_const0 (ttNot target)
      · simp [h0, h1]
      · simp only [if_neg h0, if_neg h1]
        rcases hz : zero_resub target (ttNot target) tts 0 with _ | lit
        · have hm0 : ¬ (m = 0) := by omega
          simp only [if_neg hm0, if_neg (by omega : ¬ ((1 : Nat) = 0))]
          rcases ho : one_resub target tts (collect_maj1pairs target tts) with _ | g
          · by_cases hm1 : m = 1 <;> simp [hm1]
          · simp
        · simp

/-! Positional membership lemmas for the prefilter (claim C4). -/

theorem collect_inner_mem_of_combo {target : TT} :
    ∀ (rest : List TT) (a : TT) (i j0 m : Nat), m < rest.length →
    ∀ pr ∈ pair_combo target a (rest.getD m []) i (j0 + m),
      pr ∈ collect_inner target a rest i j0 := by
  intro rest
  induction rest with
  | nil => intro a i j0 m hm; simp at hm
  | cons b bs ih =>
    intro a i j0 m hm pr hpr
    rw [collect_inner, List.mem_append]
    cases m with
    | zero =>
      left
      simpa using hpr
    | succ m2 =>
      right
      refine ih a i (j0 + 1) m2 (by simpa using hm) pr ?_
      have harith : j0 + 1 + m2 = j0 + (m2 + 1) := by omega
      rw [harith]
      simpa using hpr

theorem collect_outer_mem_of_pair_combo {target : TT} :
    ∀ (l : List TT) (i0 u v : Nat), u < v → v < l.length →
    ∀ pr ∈ pair_combo target (l.getD u []) (l.getD v []) (i0 + u) (i0 + v),
      pr ∈ collect_outer target l i0 := by
  intro l
  induction l with
  | nil => intro i0 u v huv hv; simp at hv
  | cons a rest ih =>
    intro i0 u v huv hv pr hpr
    rw [collect_outer, List.mem_append, List.mem_append]
    cases u with
    | zero =>
      left; left
      have hv1 : v - 1 < rest.length := by simp at hv; omega
      refine collect_inner_mem_of_combo rest a (i0 + 0) (i0 + 1) (v - 1) hv1 pr ?_
      have h1 : i0 + 1 + (v - 1) = i0 + v := by omega
      have h2 : rest.getD (v - 1) [] = (a :: rest).getD v [] := by
        cases v with
        | zero => omega
        | succ v2 => simp
      rw [h1, h2]
      simpa using hpr
    | succ u2 =>
      right
      cases v with
      | zero => omega
      | succ v2 =>
        refine ih (i0 + 1) u2 v2 (by omega) (by simpa using hv) pr ?_
        have h1 : i0 + 1 + u2 = i0 + (u2 + 1) := by omega
        have h2 : i0 + 1 + v2 = i0 + (v2 + 1) := by omega
        rw [h1, h2]
        simpa using hpr

theorem collect_outer_mem_of_single_combo {target : TT} :
    ∀ (l : List TT) (i0 u : Nat), u < l.length →
    ∀ pr ∈ single_combo target (l.getD u []) (i0 + u),
      pr ∈ collect_outer target l i0 := by
  intro l
  induction l with
  | nil => intro i0 u hu; simp at hu
  | cons a rest ih =>
    intro i0 u hu pr hpr
    rw [collect_outer, List.mem_append, List.mem_append]
    cases u with
    | zero =>
      left; right
      simpa using hpr
    | succ u2 =>
      right
      refine ih (i0 + 1) u2 (by simpa using hu) pr ?_
      have h1 : i0 + 1 + u2 = i0 + (u2 + 1) := by omega
      rw [h1]
      simpa using hpr

/-- Claim C4 counterexample: take candidates `a = [T,F]` and `b = [F,T]`
(so `b = ~a`) and the all-true target.  The sign combination `(~a, ~b)`
satisfies `majority(~a, ~b, target) == target`, yet its literal pair
`(3, 5)` is not in the collected relation list, because the four sign
combinations are tested in an `else if` chain and the earlier combination
`(a, b)` already matched. -/
theorem prefilter_missing_satisfying_combination :
    ternary_majority (ttNot [true, false]) (ttNot [false, true]) [true, true]
        = [true, true] ∧
    (make_lit 0 true, make_lit 1 true) ∉
      collect_maj1pairs [true, true] [[true, false], [false, true]] := by
  decide

theorem make_lit_inj {u i : Nat} {s t : Bool} (h : make_lit u s = make_lit i t) :
    u = i ∧ s = t := by
  unfold make_lit at h
  cases s <;> cases t
  · simp at h; exact ⟨by omega, rfl⟩
  · simp at h; exact absurd h (by omega)
  · simp at h; exact absurd h (by omega)
  · simp at h; exact ⟨by omega, rfl⟩

theorem make_lit_ge_two (u : Nat) (s : Bool) : 2 ≤ make_lit u s := by
  unfold make_lit
  cases s <;> simp <;> omega

theorem make_lit_ge_four {j : Nat} (hj : 1 ≤ j) (s : Bool) :
    4 ≤ make_lit j s := by
  unfold make_lit
  cases s <;> simp <;> omega

theorem pair_combo_mem_inv {target a b : TT} {u v : Nat} {pr : Nat × Nat}
    (h : pr ∈ pair_combo target a b u v) :
    ∃ su sv, pr = (make_lit u su, make_lit v sv) := by
  unfold pair_combo at h
  split_ifs at h <;> simp at h <;>
    first
      | exact ⟨false, false, h⟩
      | exact ⟨true, false, h⟩
      | exact ⟨false, true, h⟩
      | exact ⟨true, true, h⟩

theorem single_combo_mem_inv {target a : TT} {u : Nat} {pr : Nat × Nat}
    (h : pr ∈ single_combo target a u) :
    ∃ su c, c ≤ 1 ∧ pr = (make_lit u su, c) := by
  unfold single_combo at h
  split_ifs at h <;> simp at h <;>
    first
      | exact ⟨false, 1, by omega, h⟩
      | exact ⟨true, 1, by omega, h⟩
      | exact ⟨false, 0, by omega, h⟩
      | exact ⟨true, 0, by omega, h⟩

theorem collect_inner_mem_inv {target : TT} :
    ∀ (rest : List TT) (a : TT) (i j0 : Nat) (pr : Nat × Nat),
      pr ∈ collect_inner target a rest i j0 →
      ∃ m, m < rest.length ∧ pr ∈ pair_combo target a (rest.getD m []) i (j0 + m) := by
  intro rest
  induction rest with
  | nil => intro a i j0 pr h; simp [collect_inner] at h
  | cons b bs ih =>
    intro a i j0 pr h
    rw [collect_inner, List.mem_append] at h
    rcases h with h | h
    · exact ⟨0, by simp, by simpa using h⟩
    · obtain ⟨m, hm, hmem⟩ := ih a i (j0 + 1) pr h
      refine ⟨m + 1, by simp; omega, ?_⟩
      have harith : j0 + (m + 1) = j0 + 1 + m := by omega
      rw [harith]
      simpa using hmem

theorem collect_outer_mem_inv {target : TT} :
    ∀ (l : List TT) (i0 : Nat) (pr : Nat × Nat),
      pr ∈ collect_outer target l i0 →
      (∃ u v, u < v ∧ v < l.length ∧
        pr ∈ pair_combo target (l.getD u []) (l.getD v []) (i0 + u) (i0 + v)) ∨
      (∃ u, u < l.length ∧ pr ∈ single_combo target (l.getD u []) (i0 + u)) := by
  intro l
  induction l with
  | nil => intro i0 pr h; simp [collect_outer] at h
  | cons a rest ih =>
    intro i0 pr h
    rw [collect_outer, List.mem_append, List.mem_append] at h
    rcases h with (h | h) | h
    · left
      obtain ⟨m, hm, hmem⟩ := collect_inner_mem_inv rest a i0 (i0 + 1) pr h
      refine ⟨0, m + 1, by omega, by simp; omega, ?_⟩
      have h1 : i0 + 0 = i0 := by omega
      have h2 : i0 + (m + 1) = i0 + 1 + m := by omega
      rw [h1, h2]
      simpa using hmem
    · right
      exact ⟨0, by simp, by simpa using h⟩
    · rcases ih (i0 + 1) pr h with ⟨u, v, huv, hv, hmem⟩ | ⟨u, hu, hmem⟩
      · left
        refine ⟨u + 1, v + 1, by omega, by simp; omega, ?_⟩
        have h1 : i0 + (u + 1) = i0 + 1 + u := by omega
        have h2 : i0 + (v + 1) = i0 + 1 + v := by omega
        rw [h1, h2]
        simpa using hmem
      · right
        refine ⟨u + 1, by simp; omega, ?_⟩
        have h1 : i0 + (u + 1) = i0 + 1 + u := by omega
        rw [h1]
        simpa using hmem

@[simp] theorem make_lit_eq_same (u v : Nat) (s : Bool) :
    make_lit u s = make_lit v s ↔ u = v := by
  unfold make_lit
  cases s <;> simp <;> omega

@[simp] theorem make_lit_false_ne_true (u v : Nat) :
    ¬ make_lit u false = make_lit v true := by
  unfold make_lit
  simp
  omega

@[simp] theorem make_lit_true_ne_false (u v : Nat) :
    ¬ make_lit u true = make_lit v false := by
  unfold make_lit
  simp
  omega

theorem collect_pair_mem_localize {target : TT} {tts : List TT} {i j : Nat}
    {s1 s2 : Bool}
    (h : (make_lit i s1, make_lit j s2) ∈ collect_maj1pairs target tts) :
    (make_lit i s1, make_lit j s2) ∈
      pair_combo target (tts.getD i []) (tts.getD j []) i j := by
  unfold collect_maj1pairs at h
  rcases collect_outer_mem_inv tts 0 _ h with ⟨u, v, huv, hv, hmem⟩ | ⟨u, hu, hmem⟩
  · simp only [Nat.zero_add] at hmem
    obtain ⟨su, sv, heq⟩ := pair_combo_mem_inv hmem
    simp only [Prod.mk.injEq] at heq
    obtain ⟨hiu, hs1⟩ := make_lit_inj heq.1
    obtain ⟨hjv, hs2⟩ := make_lit_inj heq.2
    subst hiu; subst hjv; subst hs1; subst hs2
    exact hmem
  · obtain ⟨su, c, hc, heq⟩ := single_combo_mem_inv hmem
    simp only [Prod.mk.injEq] at heq
    have := make_lit_ge_two j s2
    omega

theorem collect_single_mem_localize {target : TT} {tts : List TT} {i c : Nat}
    {s : Bool} (hc : c ≤ 1)
    (h : (make_lit i s, c) ∈ collect_maj1pairs target tts) :
    (make_lit i s, c) ∈ single_combo target (tts.getD i []) i := by
  unfold collect_maj1pairs at h
  rcases collect_outer_mem_inv tts 0 _ h with ⟨u, v, huv, hv, hmem⟩ | ⟨u, hu, hmem⟩
  · obtain ⟨su, sv, heq⟩ := pair_combo_mem_inv hmem
    simp only [Prod.mk.injEq] at heq
    have := make_lit_ge_two (0 + v) sv
    omega
  · simp only [Nat.zero_add] at hmem
    obtain ⟨su, c2, hc2, heq⟩ := single_combo_mem_inv hmem
    simp only [Prod.mk.injEq] at heq
    obtain ⟨hiu, hs⟩ := make_lit_inj heq.1
    subst hiu; subst hs
    exact hmem

/-- Claim C4 (amended): membership characterization of the prefilter's
collected relation list.  For every ordered candidate pair `(i, j)` with
`i < j`, the literal pair of a sign combination is recorded if and only if
that combination is the FIRST of the four combinations `(a, b)`, `(~a, b)`,
`(a, ~b)`, `(~a, ~b)`, in that fixed order, to satisfy
`majority(a, b, target) == target`; combinations are tested in an `else if`
chain, so a later satisfying combination of the same pair is not recorded.
Likewise, for every single candidate, an implication direction's pair is
recorded if and only if it is the first satisfying one in the fixed order
`a => t`, `~a => t`, `t => a`, `t => ~a`. -/
theorem prefilter_records_exactly_first_match (target : TT) (tts : List TT) :
    (∀ i j, i < j → j < tts.length →
      ((make_lit i false, make_lit j false) ∈ collect_maj1pairs target tts ↔
        ternary_majority (tts.getD i []) (tts.getD j []) target = target) ∧
      ((make_lit i true, make_lit j false) ∈ collect_maj1pairs target tts ↔
        (¬ ternary_majority (tts.getD i []) (tts.getD j []) target = target ∧
         ternary_majority (ttNot (tts.getD i [])) (tts.getD j []) target
           = target)) ∧
      ((make_lit i false, make_lit j true) ∈ collect_maj1pairs target tts ↔
        (¬ ternary_majority (tts.getD i []) (tts.getD j []) target = target ∧
         ¬ ternary_majority (ttNot (tts.getD i [])) (tts.getD j []) target
           = target ∧
         ternary_majority (tts.getD i []) (ttNot (tts.getD j [])) target
           = target)) ∧
      ((make_lit i true, make_lit j true) ∈ collect_maj1pairs target tts ↔
        (¬ ternary_majority (tts.getD i []) (tts.getD j []) target = target ∧
         ¬ ternary_majority (ttNot (tts.getD i [])) (tts.getD j []) target
           = target ∧
         ¬ ternary_majority (tts.getD i []) (ttNot (tts.getD j [])) target
           = target ∧
         ternary_majority (ttNot (tts.getD i [])) (ttNot (tts.getD j []))
           target = target))) ∧
    (∀ i, i < tts.length →
      ((make_lit i false, 1) ∈ collect_maj1pairs target tts ↔
        implies (tts.getD i []) target = true) ∧
      ((make_lit i true, 1) ∈ collect_maj1pairs target tts ↔
        (¬ implies (tts.getD i []) target = true ∧
         implies (ttNot (tts.getD i [])) target = true)) ∧
      ((make_lit i false, 0) ∈ collect_maj1pairs target tts ↔
        (¬ implies (tts.getD i []) target = true ∧
         ¬ implies (ttNot (tts.getD i [])) target = true ∧
         implies target (tts.getD i []) = true)) ∧
      ((make_lit i true, 0) ∈ collect_maj1pairs target tts ↔
        (¬ implies (tts.getD i []) target = true ∧
         ¬ implies (ttNot (tts.getD i [])) target = true ∧
         ¬ implies target (tts.getD i []) = true ∧
         implies target (ttNot (tts.getD i [])) = true))) := by
  constructor
  · intro i j hij hj
    refine ⟨⟨?_, ?_⟩, ⟨?_, ?_⟩, ⟨?_, ?_⟩, ⟨?_, ?_⟩⟩
    · intro hmem
      have hp := collect_pair_mem_localize hmem
      rw [pair_combo] at hp
      split_ifs at hp with h1 h2 h3 h4 <;> simp at hp
      exact h1
    · intro hc
      have hmem : (make_lit i false, make_lit j false)
          ∈ pair_combo target (tts.getD i []) (tts.getD j []) i j := by
        rw [pair_combo, if_pos hc]; simp
      exact collect_outer_mem_of_pair_combo tts 0 i j hij hj _ (by simpa using hmem)
    · intro hmem
      have hp := collect_pair_mem_localize hmem
      rw [pair_combo] at hp
      split_ifs at hp with h1 h2 h3 h4 <;> simp at hp
      exact ⟨h1, h2⟩
    · rintro ⟨hn1, hc⟩
      have hmem : (make_lit i true, make_lit j false)
          ∈ pair_combo target (tts.getD i []) (tts.getD j []) i j := by
        rw [pair_combo, if_neg hn1, if_pos hc]; simp
      exact collect_outer_mem_of_pair_combo tts 0 i j hij hj _ (by simpa using hmem)
    · intro hmem
      have hp := collect_pair_mem_localize hmem
      rw [pair_combo] at hp
      split_ifs at hp with h1 h2 h3 h4 <;> simp at hp
      exact ⟨h1, h2, h3⟩
    · rintro ⟨hn1, hn2, hc⟩
      have hmem : (make_lit i false, make_lit j true)
          ∈ pair_combo target (tts.getD i []) (tts.getD j []) i j := by
        rw [pair_combo, if_neg hn1, if_neg hn2, if_pos hc]; simp
      exact collect_outer_mem_of_pair_combo tts 0 i j hij hj _ (by simpa using hmem)
    · intro hmem
      have hp := collect_pair_mem_localize hmem
      rw [pair_combo] at hp
      split_ifs at hp with h1 h2 h3 h4 <;> simp at hp
      exact ⟨h1, h2, h3, h4⟩
    · rintro ⟨hn1, hn2, hn3, hc⟩
      have hmem : (make_lit i true, make_lit j true)
          ∈ pair_combo target (tts.getD i []) (tts.getD j []) i j := by
        rw [pair_combo, if_neg hn1, if_neg hn2, if_neg hn3, if_pos hc]; simp
      exact collect_outer_mem_of_pair_combo tts 0 i j hij hj _ (by simpa using hmem)
  · intro i hi
    refine ⟨⟨?_, ?_⟩, ⟨?_, ?_⟩, ⟨?_, ?_⟩, ⟨?_, ?_⟩⟩
    · intro hmem
      have hp := collect_single_mem_localize (by omega) hmem
      rw [single_combo] at hp
      split_ifs at hp with h1 h2 h3 h4 <;> simp at hp
      exact h1
    · intro hc
      have hmem : (make_lit i false, 1)
          ∈ single_combo target (tts.getD i []) i := by
        rw [single_combo, if_pos hc]; simp
      exact collect_outer_mem_of_single_combo tts 0 i hi _ (by simpa using hmem)
    · intro hmem
      have hp := collect_single_mem_localize (by omega) hmem
      rw [single_combo] at hp
      split_ifs at hp with h1 h2 h3 h4 <;> simp at hp
      exact ⟨h1, h2⟩
    · rintro ⟨hn1, hc⟩
      have hmem : (make_lit i true, 1)
          ∈ single_combo target (tts.getD i []) i := by
        rw [single_combo, if_neg hn1, if_pos hc]; simp
      exact collect_outer_mem_of_single_combo tts 0 i hi _ (by simpa using hmem)
    · intro hmem
      have hp := collect_single_mem_localize (by omega) hmem
      rw [single_combo] at hp
      split_ifs at hp with h1 h2 h3 h4 <;> simp at hp
      exact ⟨h1, h2, h3⟩
    · rintro ⟨hn1, hn2, hc⟩
      have hmem : (make_lit i false, 0)
          ∈ single_combo target (tts.getD i []) i := by
        rw [single_combo, if_neg hn1, if_neg hn2, if_pos hc]; simp
      exact collect_outer_mem_of_single_combo tts 0 i hi _ (by simpa using hmem)
    · intro hmem
      have hp := collect_single_mem_localize (by omega) hmem
      rw [single_combo] at hp
      split_ifs at hp with h1 h2 h3 h4 <;> simp at hp
      exact ⟨h1, h2, h3, h4⟩
    · rintro ⟨hn1, hn2, hn3, hc⟩
      have hmem : (make_lit i true, 0)
          ∈ single_combo target (tts.getD i []) i := by
        rw [single_combo, if_neg hn1, if_neg hn2, if_neg hn3, if_pos hc]; simp
      exact collect_outer_mem_of_single_combo tts 0 i hi _ (by simpa using hmem)

theorem mig_enumerative_resyn_replay_correct_witness :
    (∀ t ∈ [[false, true, false, true], [false, false, true, true]],
      List.length t = List.length [false, false, false, true]) ∧
    run [false, false, false, true]
        [[false, true, false, true], [false, false, true, true]] 10
      = some (mig_index_list.mk 2 [(2, 4, 0)] [6]) ∧
    (∃ lit, (mig_index_list.mk 2 [(2, 4, 0)] [6]).outputs = [lit] ∧
      eval_output (List.length [false, false, false, true])
        (mig_index_list.mk 2 [(2, 4, 0)] [6])
        [[false, true, false, true], [false, false, true, true]] lit
        = [false, false, false, true]) :=
  ⟨by decide, by decide,
   mig_enumerative_resyn_replay_correct _ _ 10 _ (by decide) (by decide)⟩

theorem mig_enumerative_resyn_deterministic_witness :
    run [false, true] [[false, true]] 5 = run [false, true] [[false, true]] 5 :=
  mig_enumerative_resyn_deterministic _ _ _ _ _ _ rfl rfl rfl

theorem mig_enumerative_resyn_care_assert_witness :
    run_checked [false, true] [true, false] [[false, true]] 3 = Except.error () ∧
    run_checked [false, true] [true, true] [[false, true]] 3
      = Except.ok (run [false, true] [[false, true]] 3) :=
  ⟨(mig_enumerative_resyn_care_assert [false, true] [true, false] [[false, true]] 3).1
     ⟨false, by decide, rfl⟩,
   (mig_enumerative_resyn_care_assert [false, true] [true, true] [[false, true]] 3).2
     (by decide)⟩

theorem mig_enumerative_resyn_at_most_one_gate_witness :
    (mig_index_list.mk 2 [(2, 4, 0)] [6]).gates.length ≤ 1 ∧
    run [false, false, false, true]
        [[false, true, false, true], [false, false, true, true]] 7
      = run [false, false, false, true]
          [[false, true, false, true], [false, false, true, true]] 1 :=
  ⟨(mig_enumerative_resyn_at_most_one_gate [false, false, false, true]
      [[false, true, false, true], [false, false, true, true]] 7).1 _ (by decide),
   (mig_enumerative_resyn_at_most_one_gate [false, false, false, true]
      [[false, true, false, true], [false, false, true, true]] 7).2 (by decide)⟩

theorem prefilter_records_exactly_first_match_witness :
    (0 : Nat) < 1 ∧ (1 : Nat) < ([[true, false], [false, true]] : List TT).length ∧
    (make_lit 0 false, make_lit 1 false) ∈
      collect_maj1pairs [true, true] [[true, false], [false, true]] ∧
    ternary_majority (ttNot [true, false]) (ttNot [false, true]) [true, true]
      = [true, true] ∧
    (make_lit 0 true, make_lit 1 true) ∉
      collect_maj1pairs [true, true] [[true, false], [false, true]] :=
  ⟨by decide, by decide,
   ((prefilter_records_exactly_first_match [true, true]
       [[true, false], [false, true]]).1 0 1 (by decide) (by decide)).1.mpr
     (by decide),
   by decide,
   fun h =>
     (((prefilter_records_exactly_first_match [true, true]
         [[true, false], [false, true]]).1 0 1 (by decide) (by decide)).2.2.2.mp
       h).1 (by decide)⟩

end mig_enumerative

/-! ## Refactoring driver lemmas and claim theorems -/

theorem refactor_step_fst (ps : refactor_params)
    (cut_fn : Nat → Network → Nat → List Nat) (size : Nat)
    (acc : Network × Bool) (ni : Nat × Nat) :
    (refactor_step ps cut_fn size acc ni).1 = acc.1 := by
  unfold refactor_step node_refactor
  split_ifs <;> rfl

theorem refactor_eq_helper (ntk : Network) (ps : refactor_params)
    (cut_fn : Nat → Network → Nat → List Nat) :
    refactor ntk ps cut_fn = ntk := by
  unfold refactor refactor_run
  have hfold : ∀ (l : List (Nat × Nat)) (st : Network × Bool),
      (l.foldl (refactor_step ps cut_fn ntk.size) st).1 = st.1 := by
    intro l
    induction l with
    | nil => intro st; rfl
    | cons x xs ih => intro st; rw [List.foldl_cons, ih, refactor_step_fst]
  rw [hfold]

/-- Claim C9: for every network and every parameter setting, `refactor()`
leaves the network completely unchanged: the per-node evaluation step
`node_refactor` is an empty stub, so no gate is created, no output is
redirected, and no node is marked dead during the sweep. -/
theorem refactor_leaves_network_unchanged (ntk : Network) (ps : refactor_params)
    (cut_fn : Nat → Network → Nat → List Nat) :
    refactor ntk ps cut_fn = ntk :=
  refactor_eq_helper ntk ps cut_fn

/-- Claim C3: running `refactor()` produces a network that simulates
identically to the input network at every surviving primary output, and the
network is only ever mutated by a committed strictly smaller replacement --
no commit happens (the evaluation step is a stub), so it is unchanged. -/
theorem refactor_preserves_output_functions (ntk : Network)
    (ps : refactor_params) (cut_fn : Nat → Network → Nat → List Nat)
    (env : Nat → Bool) (o : Nat)
    (ho : o ∈ (refactor ntk ps cut_fn).outputs) :
    simulate (refactor ntk ps cut_fn) env o = simulate ntk env o ∧
      refactor ntk ps cut_fn = ntk := by
  have h := refactor_eq_helper ntk ps cut_fn
  exact ⟨by rw [h], h⟩

theorem refactor_preserves_output_functions_witness :
    (3 ∈ (refactor exNet {} (fun _ _ _ => [])).outputs) ∧
    (simulate (refactor exNet {} (fun _ _ _ => [])) (fun _ => true) 3
        = simulate exNet (fun _ => true) 3 ∧
      refactor exNet {} (fun _ _ _ => []) = exNet) :=
  ⟨by decide,
   refactor_preserves_output_functions exNet {} (fun _ _ _ => [])
     (fun _ => true) 3 (by decide)⟩


/-! ## Cone-of-influence lemmas and claim theorems -/

/-- Claim C2: at the concrete network `bugNet` with pivot 4, the
constructed view violates window soundness: gate 3 is an inner node of the
view and primary input 2 is one of its fan-ins, yet 2 is neither the
constant nor a leaf nor an inner node of the view, and hence has no
position in the constant-leaf-inner `foreach_node` order at all (so the
order cannot place every fan-in before its consumer).  The `return false`
of `collect_recurse`'s fan-in lambda terminates the fan-in iteration of
gate 3 after fan-in 1 (already collected, via pivot 4) is seen, so fan-in 2
is never collected. -/
theorem coi_view_misses_inner_fanin :
    ∃ st, coiView bugNet [4] = some st ∧
      3 ∈ st.inner ∧ 2 ∈ bugNet.fanins 3 ∧ bugNet.is_pi 2 = true ∧
      (2 : Nat) ≠ 0 ∧ 2 ∉ st.leaves ∧ 2 ∉ st.inner ∧ 2 ∉ st.node_order := by
  refine ⟨{ nodes := [1, 3], leaves := [1], inner := [3, 4], topo := [3, 4],
            colors := [2, 2, 2, 2],
            n2i := [(0, 0), (1, 1), (3, 2), (4, 3), (2, 0)] }, ?_, ?_, ?_, ?_, ?_, ?_, ?_, ?_⟩
  · simp [coiView, coiUpdate, collectAll, collectRec, collectGo, computeSets,
      coiSortedNodes, coiLeaves, coiInner0, coiMap3, coiSz, coiColors, coiTopo,
      buildSel, mapEmplaceAll, mapEmplace, mapLookup, mapBracket, topoAll,
      topoRec, topoGo, faninsOf, bugNet, coiInit, List.insertionSort,
      List.orderedInsert]
    decide
  · decide
  · simp [bugNet]
  · simp [bugNet]
  · decide
  · decide
  · decide
  · simp [CoiState.node_order]

/-! ### Association-list map lemmas -/

theorem mapLookup_append {m m2 : List (Nat × Nat)} {k : Nat} :
    mapLookup (m ++ m2) k =
      match mapLookup m k with
      | some v => some v
      | none => mapLookup m2 k := by
  induction m with
  | nil => simp [mapLookup]
  | cons e rest ih =>
    by_cases he : e.1 = k
    · simp [mapLookup, he]
    · simp [mapLookup, he, ih]

theorem mapLookup_append_some {m : List (Nat × Nat)} {k v : Nat}
    (h : mapLookup m k = some v) (m2 : List (Nat × Nat)) :
    mapLookup (m ++ m2) k = some v := by
  rw [mapLookup_append, h]

theorem mapLookup_append_none {m : List (Nat × Nat)} {k : Nat}
    (h : mapLookup m k = none) (m2 : List (Nat × Nat)) :
    mapLookup (m ++ m2) k = mapLookup m2 k := by
  rw [mapLookup_append, h]

theorem mapLookup_mem {m : List (Nat × Nat)} {k v : Nat}
    (h : mapLookup m k = some v) : (k, v) ∈ m := by
  induction m with
  | nil => simp [mapLookup] at h
  | cons e rest ih =>
    rw [mapLookup] at h
    by_cases he : e.1 = k
    · rw [if_pos he] at h
      simp only [Option.some.injEq] at h
      have : e = (k, v) := by
        cases e with
        | mk a b => simp only at he h; rw [he, h]
      rw [this]
      exact List.mem_cons_self _ _
    · rw [if_neg he] at h
      exact List.mem_cons_of_mem e (ih h)

theorem mapLookup_eq_none {m : List (Nat × Nat)} {k : Nat} :
    mapLookup m k = none ↔ k ∉ m.map Prod.fst := by
  induction m with
  | nil => simp [mapLookup]
  | cons e rest ih =>
    rw [mapLookup]
    by_cases he : e.1 = k
    · simp [he]
    · simp [he, ih, Ne.symm he]

theorem mapLookup_isSome_of_mem {m : List (Nat × Nat)} {e : Nat × Nat}
    (h : e ∈ m) : mapLookup m e.1 ≠ none := by
  intro hk
  exact (mapLookup_eq_none.mp hk) (List.mem_map_of_mem Prod.fst h)

theorem mapEmplace_of_some {m : List (Nat × Nat)} {k v : Nat}
    (h : mapLookup m k = some v) (w : Nat) : mapEmplace m k w = m := by
  simp [mapEmplace, h]

theorem mapEmplace_of_none {m : List (Nat × Nat)} {k : Nat}
    (h : mapLookup m k = none) (w : Nat) : mapEmplace m k w = m ++ [(k, w)] := by
  simp [mapEmplace, h]

/-! ### Zero-valued fresh extension of the node-to-index map -/


theorem ZeroExt.refl (m : List (Nat × Nat)) : ZeroExt m m :=
  ⟨[], by simp, by simp⟩

theorem ZeroExt.trans {m1 m2 m3 : List (Nat × Nat)}
    (h1 : ZeroExt m1 m2) (h2 : ZeroExt m2 m3) : ZeroExt m1 m3 := by
  obtain ⟨d1, rfl, hd1⟩ := h1
  obtain ⟨d2, rfl, hd2⟩ := h2
  refine ⟨d1 ++ d2, by simp, ?_⟩
  intro e he
  rcases List.mem_append.mp he with he | he
  · exact hd1 e he
  · refine ⟨(hd2 e he).1, ?_⟩
    have := (hd2 e he).2
    intro hc
    exact this (by simp [hc])

theorem ZeroExt.lookup {m m2 : List (Nat × Nat)} (h : ZeroExt m m2) (k : Nat) :
    mapLookup m2 k = mapLookup m k ∨
      (mapLookup m k = none ∧ mapLookup m2 k = some 0) := by
  obtain ⟨d, rfl, hd⟩ := h
  rcases hm : mapLookup m k with _ | v
  · rcases hd2 : mapLookup d k with _ | w
    · left
      rw [mapLookup_append_none hm, hd2]
    · right
      refine ⟨rfl, ?_⟩
      have hw := (hd _ (mapLookup_mem hd2)).1
      simp only at hw
      rw [mapLookup_append_none hm, hd2, hw]
  · left
    rw [mapLookup_append_some hm]

theorem ZeroExt.lookup_some {m m2 : List (Nat × Nat)} (h : ZeroExt m m2)
    {k v : Nat} (hk : mapLookup m k = some v) : mapLookup m2 k = some v := by
  obtain ⟨d, rfl, _⟩ := h
  exact mapLookup_append_some hk d

/-! ### Collection lemmas -/

theorem collect_mono (N : Network) :
    ∀ n nodes, ∃ t, collectRec N n nodes = nodes ++ t := by
  intro n
  induction n using Nat.strong_induction_on with
  | _ n ih =>
    intro nodes
    have hgo : ∀ pending (hp : ∀ f ∈ pending, f < n) nodes,
        ∃ t, collectGo N n pending hp nodes = nodes ++ t := by
      intro pending
      induction pending with
      | nil => intro hp nodes; exact ⟨[], by simp [collectGo]⟩
      | cons f fs ihl =>
        intro hp nodes
        rw [collectGo]
        by_cases hmem : f ∈ nodes
        · simp [hmem]
        · simp only [if_neg hmem]
          obtain ⟨t1, ht1⟩ := ih f (hp f (List.mem_cons_self f fs)) (nodes ++ [f])
          obtain ⟨t2, ht2⟩ := ihl _ (collectRec N f (nodes ++ [f]))
          exact ⟨[f] ++ t1 ++ t2, by rw [ht2, ht1]; simp⟩
    rw [collectRec]
    by_cases h0 : n = 0
    · simp [h0]
    · simp only [if_neg h0]
      by_cases hpi : N.is_pi n
      · by_cases hmem : n ∈ nodes <;> simp [hpi, hmem]
      · simp only [hpi]
        simpa using hgo (N.fanins n) _ nodes

theorem collectGo_mono (N : Network) (n : Nat) :
    ∀ pending (hp : ∀ f ∈ pending, f < n) nodes,
      ∃ t, collectGo N n pending hp nodes = nodes ++ t := by
  intro pending
  induction pending with
  | nil => intro hp nodes; exact ⟨[], by simp [collectGo]⟩
  | cons f fs ihl =>
    intro hp nodes
    rw [collectGo]
    by_cases hmem : f ∈ nodes
    · simp [hmem]
    · simp only [if_neg hmem]
      obtain ⟨t1, ht1⟩ := collect_mono N f (nodes ++ [f])
      obtain ⟨t2, ht2⟩ := ihl _ (collectRec N f (nodes ++ [f]))
      exact ⟨[f] ++ t1 ++ t2, by rw [ht2, ht1]; simp⟩

theorem mem_collectRec (N : Network) (n : Nat) (nodes : List Nat) {x : Nat}
    (hx : x ∈ nodes) : x ∈ collectRec N n nodes := by
  obtain ⟨t, ht⟩ := collect_mono N n nodes
  rw [ht]
  exact List.mem_append_left t hx

theorem collectRec_pi_mem (N : Network) (n : Nat) (nodes : List Nat)
    (h0 : n ≠ 0) (hpi : N.is_pi n) : n ∈ collectRec N n nodes := by
  rw [collectRec, if_neg h0, if_pos hpi]
  by_cases hmem : n ∈ nodes
  · simpa [hmem] using hmem
  · simp [hmem]

theorem collectRec_head_fanin_mem (N : Network) (n : Nat) (nodes : List Nat)
    {f : Nat} {fs : List Nat} (h0 : n ≠ 0) (hpi : ¬ N.is_pi n)
    (hf : N.fanins n = f :: fs) : f ∈ collectRec N n nodes := by
  rw [collectRec, if_neg h0]
  simp only [hpi, if_neg, Bool.false_eq_true, if_false]
  have hrw : collectGo N n (N.fanins n) (fun g hg => N.fanin_lt n g hg) nodes
      = collectGo N n (f :: fs)
        (by rw [← hf]; exact fun g hg => N.fanin_lt n g hg) nodes := by
    congr 1 <;> rw [hf]
  rw [hrw, collectGo]
  by_cases hmem : f ∈ nodes
  · simpa [hmem] using hmem
  · simp only [if_neg hmem]
    obtain ⟨t2, ht2⟩ := collectGo_mono N n fs _ (collectRec N f (nodes ++ [f]))
    rw [ht2]
    refine List.mem_append_left t2 (mem_collectRec N f _ ?_)
    simp


theorem collect_saturated_mono {N : Network} {p : Nat} {S S2 : List Nat}
    (h : collect_saturated N p S) (hsub : ∀ x ∈ S, x ∈ S2) :
    collect_saturated N p S2 := by
  rcases h with h | ⟨hpi, hmem⟩ | ⟨hpi, hf⟩
  · exact Or.inl h
  · exact Or.inr (Or.inl ⟨hpi, hsub _ hmem⟩)
  · rcases hf with hf | ⟨f, fs, hf, hmem⟩
    · exact Or.inr (Or.inr ⟨hpi, Or.inl hf⟩)
    · exact Or.inr (Or.inr ⟨hpi, Or.inr ⟨f, fs, hf, hsub _ hmem⟩⟩)

theorem collectRec_fix (N : Network) (p : Nat) (nodes : List Nat)
    (h : collect_saturated N p nodes) : collectRec N p nodes = nodes := by
  rcases h with h | ⟨hpi, hmem⟩ | ⟨hpi, hf⟩
  · rw [collectRec, if_pos h]
  · rw [collectRec]
    by_cases h0 : p = 0
    · rw [if_pos h0]
    · rw [if_neg h0, if_pos hpi, if_pos hmem]
  · rw [collectRec]
    by_cases h0 : p = 0
    · rw [if_pos h0]
    · rw [if_neg h0]
      simp only [hpi, Bool.false_eq_true, if_false]
      rcases hf with hf | ⟨f, fs, hf, hmem⟩
      · have hrw : collectGo N p (N.fanins p) (fun g hg => N.fanin_lt p g hg) nodes
            = collectGo N p [] (by simp) nodes := by
          congr 1 <;> rw [hf]
        rw [hrw, collectGo]
      · have hrw : collectGo N p (N.fanins p) (fun g hg => N.fanin_lt p g hg) nodes
            = collectGo N p (f :: fs)
              (by rw [← hf]; exact fun g hg => N.fanin_lt p g hg) nodes := by
          congr 1 <;> rw [hf]
        rw [hrw, collectGo, if_pos hmem]

theorem collectRec_saturates (N : Network) (p : Nat) (nodes : List Nat) :
    collect_saturated N p (collectRec N p nodes) := by
  by_cases h0 : p = 0
  · exact Or.inl h0
  · by_cases hpi : N.is_pi p
    · exact Or.inr (Or.inl ⟨hpi, collectRec_pi_mem N p nodes h0 hpi⟩)
    · rcases hf : N.fanins p with _ | ⟨f, fs⟩
      · exact Or.inr (Or.inr ⟨hpi, Or.inl hf⟩)
      · exact Or.inr (Or.inr ⟨hpi, Or.inr
          ⟨f, fs, hf, collectRec_head_fanin_mem N p nodes h0 hpi hf⟩⟩)

theorem collectAll_mono (N : Network) :
    ∀ (pivots : List Nat) (nodes : List Nat), ∃ t,
      collectAll N pivots nodes = nodes ++ t := by
  intro pivots
  induction pivots with
  | nil => intro nodes; exact ⟨[], by simp [collectAll]⟩
  | cons p rest ih =>
    intro nodes
    obtain ⟨t1, ht1⟩ := collect_mono N p nodes
    obtain ⟨t2, ht2⟩ := ih (collectRec N p nodes)
    refine ⟨t1 ++ t2, ?_⟩
    simp only [collectAll, List.foldl_cons] at ht2 ⊢
    rw [ht2, ht1, List.append_assoc]

theorem collectAll_saturates (N : Network) :
    ∀ (pivots : List Nat) (nodes : List Nat) (p : Nat), p ∈ pivots →
      collect_saturated N p (collectAll N pivots nodes) := by
  intro pivots
  induction pivots with
  | nil => intro nodes p hp; simp at hp
  | cons q rest ih =>
    intro nodes p hp
    rcases List.mem_cons.mp hp with rfl | hp
    · have h1 := collectRec_saturates N p nodes
      obtain ⟨t, ht⟩ := collectAll_mono N rest (collectRec N p nodes)
      simp only [collectAll, List.foldl_cons] at ht ⊢
      rw [ht]
      exact collect_saturated_mono h1 (fun x hx => List.mem_append_left t hx)
    · simp only [collectAll, List.foldl_cons]
      exact ih (collectRec N q nodes) p hp

theorem collectAll_fixed (N : Network) :
    ∀ (pivots : List Nat) (nodes : List Nat),
      (∀ p ∈ pivots, collect_saturated N p nodes) →
      collectAll N pivots nodes = nodes := by
  intro pivots
  induction pivots with
  | nil => intro nodes _; rfl
  | cons q rest ih =>
    intro nodes h
    simp only [collectAll, List.foldl_cons]
    rw [collectRec_fix N q nodes (h q (List.mem_cons_self q rest))]
    exact ih nodes (fun p hp => h p (List.mem_cons_of_mem q hp))

/-! ### Topological-sort map growth -/

theorem mapLookup_single {n w k : Nat} :
    mapLookup [(n, w)] k = if n = k then some w else none := by
  simp [mapLookup]

theorem ZeroExt.single {m : List (Nat × Nat)} {n : Nat}
    (h : mapLookup m n = none) : ZeroExt m (m ++ [(n, 0)]) :=
  ⟨[(n, 0)], rfl, by
    intro e he
    simp only [List.mem_singleton] at he
    subst he
    exact ⟨rfl, mapLookup_eq_none.mp h⟩⟩

theorem topo_zeroExt (N : Network) :
    ∀ (n : Nat) (m : List (Nat × Nat)) (cs tp : List Nat),
      ZeroExt m (topoRec N n m cs tp).1 := by
  intro n
  induction n using Nat.strong_induction_on with
  | _ n ih =>
    intro m cs tp
    have hgo : ∀ pending (hp : ∀ f ∈ pending, f < n) m cs tp,
        ZeroExt m (topoGo N n pending hp m cs tp).1 := by
      intro pending
      induction pending with
      | nil => intro hp m cs tp; rw [topoGo]; exact ZeroExt.refl m
      | cons f fs ihl =>
        intro hp m cs tp
        rw [topoGo]
        exact ZeroExt.trans (ih f (hp f (List.mem_cons_self f fs)) m cs tp)
          (ihl _ _ _ _)
    rw [topoRec]
    rcases hm : mapLookup m n with _ | v
    · simp only [mapBracket, hm]
      split
      · exact ZeroExt.single hm
      · exact ZeroExt.trans (ZeroExt.single hm) (hgo _ _ _ _ _)
    · simp only [mapBracket, hm]
      split
      · exact ZeroExt.refl m
      · exact hgo _ _ _ _ _

theorem topoGo_zeroExt (N : Network) (n : Nat) :
    ∀ pending (hp : ∀ f ∈ pending, f < n) m cs tp,
      ZeroExt m (topoGo N n pending hp m cs tp).1 := by
  intro pending
  induction pending with
  | nil => intro hp m cs tp; rw [topoGo]; exact ZeroExt.refl m
  | cons f fs ihl =>
    intro hp m cs tp
    rw [topoGo]
    exact ZeroExt.trans (topo_zeroExt N f m cs tp) (ihl _ _ _ _)

theorem topoAll_zeroExt (N : Network) :
    ∀ (pivots : List Nat) (m : List (Nat × Nat)) (cs tp : List Nat),
      ZeroExt m (topoAll N pivots m cs tp).1 := by
  intro pivots
  induction pivots with
  | nil => intro m cs tp; exact ZeroExt.refl m
  | cons p rest ih =>
    intro m cs tp
    simp only [topoAll, List.foldl_cons]
    have h1 := topo_zeroExt N p m cs tp
    have h2 := ih (topoRec N p m cs tp).1 (topoRec N p m cs tp).2.1
      (topoRec N p m cs tp).2.2
    simp only [topoAll] at h2
    exact ZeroExt.trans h1 h2

/-! ### Topological-sort simulation: rerunning with the final map -/

theorem mapLookup_append_single_ne {x : List (Nat × Nat)} {n w k : Nat}
    (hk : n ≠ k) : mapLookup (x ++ [(n, w)]) k = mapLookup x k := by
  rcases hx : mapLookup x k with _ | v
  · rw [mapLookup_append_none hx, mapLookup_single, if_neg hk]
  · rw [mapLookup_append_some hx]

theorem mapLookup_append_single_self {x : List (Nat × Nat)} {n w : Nat}
    (hx : mapLookup x n = none) : mapLookup (x ++ [(n, w)]) n = some w := by
  rw [mapLookup_append_none hx, mapLookup_single, if_pos rfl]


theorem ZeroExt.mapSim {m m2 : List (Nat × Nat)} (h : ZeroExt m m2) :
    MapSim m m2 :=
  fun k => h.lookup k

theorem ZeroExt.isSome_mono {m m2 : List (Nat × Nat)} (h : ZeroExt m m2)
    {k : Nat} (hk : mapLookup m k ≠ none) : mapLookup m2 k ≠ none := by
  rcases hm : mapLookup m k with _ | v
  · exact absurd hm hk
  · rw [h.lookup_some hm]; simp

theorem MapSim.extend_both {ma mb : List (Nat × Nat)} {n : Nat}
    (h : MapSim ma mb) (ha : mapLookup ma n = none)
    (hb : mapLookup mb n = none) :
    MapSim (ma ++ [(n, 0)]) (mb ++ [(n, 0)]) := by
  intro k
  by_cases hk : n = k
  · subst hk
    left
    rw [mapLookup_append_single_self ha, mapLookup_append_single_self hb]
  · rw [mapLookup_append_single_ne hk, mapLookup_append_single_ne hk]
    exact h k

theorem MapSim.extend_left {ma mb : List (Nat × Nat)} {n : Nat}
    (h : MapSim ma mb) (ha : mapLookup ma n = none)
    (hb : mapLookup mb n = some 0) : MapSim (ma ++ [(n, 0)]) mb := by
  intro k
  by_cases hk : n = k
  · subst hk
    left
    rw [mapLookup_append_single_self ha, hb]
  · rw [mapLookup_append_single_ne hk]
    exact h k

theorem topo_sim (N : Network) :
    ∀ (n : Nat) (ma mb : List (Nat × Nat)) (cs tp : List Nat), MapSim ma mb →
      MapSim (topoRec N n ma cs tp).1 (topoRec N n mb cs tp).1 ∧
      (topoRec N n mb cs tp).2.1 = (topoRec N n ma cs tp).2.1 ∧
      (topoRec N n mb cs tp).2.2 = (topoRec N n ma cs tp).2.2 ∧
      (∀ k, mapLookup (topoRec N n mb cs tp).1 k ≠ none →
        mapLookup mb k ≠ none ∨ mapLookup (topoRec N n ma cs tp).1 k ≠ none) := by
  intro n
  induction n using Nat.strong_induction_on with
  | _ n ih =>
    have hgo : ∀ pending (hp : ∀ f ∈ pending, f < n) ma mb cs tp, MapSim ma mb →
        MapSim (topoGo N n pending hp ma cs tp).1 (topoGo N n pending hp mb cs tp).1 ∧
        (topoGo N n pending hp mb cs tp).2.1 = (topoGo N n pending hp ma cs tp).2.1 ∧
        (topoGo N n pending hp mb cs tp).2.2 = (topoGo N n pending hp ma cs tp).2.2 ∧
        (∀ k, mapLookup (topoGo N n pending hp mb cs tp).1 k ≠ none →
          mapLookup mb k ≠ none ∨
            mapLookup (topoGo N n pending hp ma cs tp).1 k ≠ none) := by
      intro pending
      induction pending with
      | nil =>
        intro hp ma mb cs tp hsim
        rw [topoGo, topoGo]
        exact ⟨hsim, rfl, rfl, fun k hk => Or.inl hk⟩
      | cons f fs ihl =>
        intro hp ma mb cs tp hsim
        rw [topoGo, topoGo]
        obtain ⟨hs1, hc1, ht1, hk1⟩ :=
          ih f (hp f (List.mem_cons_self f fs)) ma mb cs tp hsim
        rw [hc1, ht1]
        obtain ⟨hs2, hc2, ht2, hk2⟩ := ihl (fun x hx => hp x (List.mem_cons_of_mem f hx))
          (topoRec N f ma cs tp).1 (topoRec N f mb cs tp).1
          (topoRec N f ma cs tp).2.1 (topoRec N f ma cs tp).2.2 hs1
        refine ⟨hs2, hc2, ht2, ?_⟩
        intro k hk
        rcases hk2 k hk with hk3 | hk3
        · rcases hk1 k hk3 with hk4 | hk4
          · exact Or.inl hk4
          · right
            have hze := topoGo_zeroExt N n fs
              (fun x hx => hp x (List.mem_cons_of_mem f hx))
              (topoRec N f ma cs tp).1 (topoRec N f ma cs tp).2.1
              (topoRec N f ma cs tp).2.2
            exact hze.isSome_mono hk4
        · exact Or.inr hk3
    intro ma mb cs tp hsim
    rw [topoRec, topoRec]
    rcases hsim n with hbn | ⟨han, hbn⟩
    · rcases han : mapLookup ma n with _ | v
      · rw [han] at hbn
        -- both maps miss n: both default-insert (n, 0)
        simp only [mapBracket, han, hbn]
        have hsim2 := hsim.extend_both han hbn
        split
        · refine ⟨hsim2, rfl, rfl, ?_⟩
          intro k hk
          by_cases hkn : n = k
          · subst hkn
            right
            rw [mapLookup_append_single_self han]
            simp
          · rw [mapLookup_append_single_ne hkn] at hk
            exact Or.inl hk
        · obtain ⟨hs3, hc3, ht3, hk3⟩ := hgo (faninsOf N n) (faninsOf_lt N n)
            (ma ++ [(n, 0)]) (mb ++ [(n, 0)]) (cs.set 0 1) tp hsim2
          rw [hc3, ht3]
          refine ⟨hs3, rfl, rfl, ?_⟩
          intro k hk
          rcases hk3 k hk with hk4 | hk4
          · by_cases hkn : n = k
            · subst hkn
              right
              have hze := topoGo_zeroExt N n (faninsOf N n) (faninsOf_lt N n)
                (ma ++ [(n, 0)]) (cs.set 0 1) tp
              refine hze.isSome_mono ?_
              rw [mapLookup_append_single_self han]
              simp
            · rw [mapLookup_append_single_ne hkn] at hk4
              exact Or.inl hk4
          · exact Or.inr hk4
      · rw [han] at hbn
        -- both maps know n with the same index
        simp only [mapBracket, han, hbn]
        split
        · exact ⟨hsim, rfl, rfl, fun k hk => Or.inl hk⟩
        · obtain ⟨hs3, hc3, ht3, hk3⟩ := hgo (faninsOf N n) (faninsOf_lt N n)
            ma mb (cs.set v 1) tp hsim
          rw [hc3, ht3]
          exact ⟨hs3, rfl, rfl, hk3⟩
    · -- run-a misses n, the rerun already has the default-inserted 0
      simp only [mapBracket, han, hbn]
      have hsim2 := hsim.extend_left han hbn
      split
      · exact ⟨hsim2, rfl, rfl, fun k hk => Or.inl hk⟩
      · obtain ⟨hs3, hc3, ht3, hk3⟩ := hgo (faninsOf N n) (faninsOf_lt N n)
          (ma ++ [(n, 0)]) mb (cs.set 0 1) tp hsim2
        rw [hc3, ht3]
        exact ⟨hs3, rfl, rfl, hk3⟩

theorem topoAll_sim (N : Network) :
    ∀ (pivots : List Nat) (ma mb : List (Nat × Nat)) (cs tp : List Nat),
      MapSim ma mb →
      MapSim (topoAll N pivots ma cs tp).1 (topoAll N pivots mb cs tp).1 ∧
      (topoAll N pivots mb cs tp).2.1 = (topoAll N pivots ma cs tp).2.1 ∧
      (topoAll N pivots mb cs tp).2.2 = (topoAll N pivots ma cs tp).2.2 ∧
      (∀ k, mapLookup (topoAll N pivots mb cs tp).1 k ≠ none →
        mapLookup mb k ≠ none ∨ mapLookup (topoAll N pivots ma cs tp).1 k ≠ none) := by
  intro pivots
  induction pivots with
  | nil =>
    intro ma mb cs tp hsim
    exact ⟨hsim, rfl, rfl, fun k hk => Or.inl hk⟩
  | cons p rest ihl =>
    intro ma mb cs tp hsim
    simp only [topoAll, List.foldl_cons]
    obtain ⟨hs1, hc1, ht1, hk1⟩ := topo_sim N p ma mb cs tp hsim
    have hb_eq : topoRec N p mb cs tp
        = ((topoRec N p mb cs tp).1, (topoRec N p ma cs tp).2.1,
           (topoRec N p ma cs tp).2.2) := by
      rw [← hc1, ← ht1]
    rw [hb_eq]
    obtain ⟨hs2, hc2, ht2, hk2⟩ := ihl (topoRec N p ma cs tp).1
      (topoRec N p mb cs tp).1 (topoRec N p ma cs tp).2.1
      (topoRec N p ma cs tp).2.2 hs1
    simp only [topoAll] at hs2 hc2 ht2 hk2 ⊢
    refine ⟨hs2, hc2, ht2, ?_⟩
    intro k hk
    rcases hk2 k hk with hk3 | hk3
    · rcases hk1 k hk3 with hk4 | hk4
      · exact Or.inl hk4
      · right
        have hze : ZeroExt (topoRec N p ma cs tp).1
            (List.foldl (fun acc p2 => topoRec N p2 acc.1 acc.2.1 acc.2.2)
              (topoRec N p ma cs tp) rest).1 := by
          have := topoAll_zeroExt N rest (topoRec N p ma cs tp).1
            (topoRec N p ma cs tp).2.1 (topoRec N p ma cs tp).2.2
          simpa [topoAll] using this
        exact hze.isSome_mono hk4
    · exact Or.inr hk3

/-! ### Emplace lemmas and computeSets stability -/

theorem mapEmplace_pres_some {m : List (Nat × Nat)} {k v : Nat}
    (h : mapLookup m k = some v) (k2 w : Nat) :
    mapLookup (mapEmplace m k2 w) k = some v := by
  unfold mapEmplace
  rcases h2 : mapLookup m k2 with _ | v2
  · exact mapLookup_append_some h _
  · exact h

theorem mapEmplace_self_isSome (m : List (Nat × Nat)) (k w : Nat) :
    mapLookup (mapEmplace m k w) k ≠ none := by
  unfold mapEmplace
  rcases h2 : mapLookup m k with _ | v2
  · rw [mapLookup_append_single_self h2]; simp
  · rw [h2]; simp

theorem mapEmplaceAll_pres_some {k v : Nat} :
    ∀ (ks : List Nat) (m : List (Nat × Nat)), mapLookup m k = some v →
      mapLookup (mapEmplaceAll m ks) k = some v := by
  intro ks
  induction ks with
  | nil => intro m h; exact h
  | cons k2 rest ih =>
    intro m h
    simp only [mapEmplaceAll, List.foldl_cons]
    exact ih _ (mapEmplace_pres_some h k2 m.length)

theorem mapEmplaceAll_pres_isSome {k : Nat} :
    ∀ (ks : List Nat) (m : List (Nat × Nat)), mapLookup m k ≠ none →
      mapLookup (mapEmplaceAll m ks) k ≠ none := by
  intro ks m h
  rcases hm : mapLookup m k with _ | v
  · exact absurd hm h
  · rw [mapEmplaceAll_pres_some ks m hm]; simp

theorem mapEmplaceAll_mem_isSome {k : Nat} :
    ∀ (ks : List Nat) (m : List (Nat × Nat)), k ∈ ks →
      mapLookup (mapEmplaceAll m ks) k ≠ none := by
  intro ks
  induction ks with
  | nil => intro m h; simp at h
  | cons k2 rest ih =>
    intro m h
    simp only [mapEmplaceAll, List.foldl_cons]
    rcases List.mem_cons.mp h with rfl | h
    · exact mapEmplaceAll_pres_isSome rest _ (mapEmplace_self_isSome m k m.length)
    · exact ih _ h

theorem mapEmplaceAll_of_present :
    ∀ (ks : List Nat) (m : List (Nat × Nat)),
      (∀ k ∈ ks, mapLookup m k ≠ none) → mapEmplaceAll m ks = m := by
  intro ks
  induction ks with
  | nil => intro m _; rfl
  | cons k2 rest ih =>
    intro m h
    simp only [mapEmplaceAll, List.foldl_cons]
    have h2 : mapEmplace m k2 m.length = m := by
      rcases hm : mapLookup m k2 with _ | v
      · exact absurd hm (h k2 (List.mem_cons_self k2 rest))
      · exact mapEmplace_of_some hm m.length
    rw [h2]
    exact ih m (fun k hk => h k (List.mem_cons_of_mem k2 hk))

theorem computeSets_spec {N : Network} {pivots : List Nat} {st st1 : CoiState}
    (h : computeSets N pivots st = some st1) :
    st1 = { nodes := coiSortedNodes st, leaves := coiLeaves N st,
            inner := (coiTopo N pivots st).2.2, topo := (coiTopo N pivots st).2.2,
            colors := (coiTopo N pivots st).2.1, n2i := (coiTopo N pivots st).1 } ∧
    (coiInner0 N st ++ pivots).length = (coiTopo N pivots st).2.2.length := by
  unfold computeSets at h
  split at h
  · exact ⟨(Option.some.inj h).symm, by assumption⟩
  · simp at h

theorem foldl_set_congr {m1 m2 : List (Nat × Nat)} :
    ∀ (ls : List Nat) (cs : List Nat),
      (∀ l ∈ ls, mapLookup m1 l = mapLookup m2 l) →
      ls.foldl (fun cs l => cs.set ((mapLookup m1 l).getD 0) 2) cs
        = ls.foldl (fun cs l => cs.set ((mapLookup m2 l).getD 0) 2) cs := by
  intro ls
  induction ls with
  | nil => intro cs _; rfl
  | cons l rest ih =>
    intro cs h
    simp only [List.foldl_cons]
    rw [h l (List.mem_cons_self l rest)]
    exact ih _ (fun x hx => h x (List.mem_cons_of_mem l hx))

/-- Keys that `compute_sets` emplaced are present in its pre-topo map. -/
theorem coiMap3_mem_isSome {N : Network} {pivots : List Nat} {st : CoiState}
    {k : Nat}
    (h : k ∈ coiLeaves N st ∨ k ∈ coiInner0 N st ∨ k ∈ pivots) :
    mapLookup (coiMap3 N pivots st) k ≠ none := by
  unfold coiMap3
  rcases h with h | h | h
  · exact mapEmplaceAll_pres_isSome pivots _
      (mapEmplaceAll_pres_isSome (coiInner0 N st) _
        (mapEmplaceAll_mem_isSome (coiLeaves N st) _ h))
  · exact mapEmplaceAll_pres_isSome pivots _
      (mapEmplaceAll_mem_isSome (coiInner0 N st) _ h)
  · exact mapEmplaceAll_mem_isSome pivots _ h

/-- Rerunning `compute_sets` on the state it produced (same sorted node
list, final node-to-index map) reproduces the same state. -/
theorem computeSets_stable {N : Network} {pivots : List Nat}
    {st st1 st2 : CoiState} (h : computeSets N pivots st = some st1)
    (hn : st2.nodes = st1.nodes) (hm : st2.n2i = st1.n2i) :
    computeSets N pivots st2 = some st1 := by
  obtain ⟨hrec, hguard⟩ := computeSets_spec h
  have hnodes1 : st1.nodes = coiSortedNodes st := by rw [hrec]
  have hm1 : st1.n2i = (coiTopo N pivots st).1 := by rw [hrec]
  -- the sorted node list is unchanged
  have hsorted : coiSortedNodes st2 = coiSortedNodes st := by
    rw [coiSortedNodes, hn, hnodes1, coiSortedNodes]
    exact List.Sorted.insertionSort_eq
      (List.sorted_insertionSort (· ≤ ·) st.nodes)
  have hleaves : coiLeaves N st2 = coiLeaves N st := by
    rw [coiLeaves, hsorted, coiLeaves]
  have hinner : coiInner0 N st2 = coiInner0 N st := by
    rw [coiInner0, hsorted, coiInner0]
  -- the map is unchanged: every emplaced key is already present
  have hze : ZeroExt (coiMap3 N pivots st) (coiTopo N pivots st).1 :=
    topoAll_zeroExt N pivots _ _ _
  have hpres : ∀ k, (k ∈ coiLeaves N st ∨ k ∈ coiInner0 N st ∨ k ∈ pivots) →
      mapLookup st2.n2i k ≠ none := by
    intro k hk
    rw [hm, hm1]
    exact hze.isSome_mono (coiMap3_mem_isSome hk)
  have hm3 : coiMap3 N pivots st2 = st2.n2i := by
    unfold coiMap3
    rw [hleaves, hinner]
    rw [mapEmplaceAll_of_present (coiLeaves N st) _
      (fun k hk => hpres k (Or.inl hk))]
    rw [mapEmplaceAll_of_present (coiInner0 N st) _
      (fun k hk => hpres k (Or.inr (Or.inl hk)))]
    exact mapEmplaceAll_of_present pivots _
      (fun k hk => hpres k (Or.inr (Or.inr hk)))
  have hsz : coiSz N pivots st2 = coiSz N pivots st := by
    rw [coiSz, hleaves, hinner, coiSz]
  -- the initial colors are unchanged
  have hcolors : coiColors N pivots st2 = coiColors N pivots st := by
    rw [coiColors, coiColors, hleaves, hsz, hm3]
    congr 1
    refine foldl_set_congr (coiLeaves N st) _ ?_
    intro l hl
    rcases hll : mapLookup (coiMap3 N pivots st) l with _ | v
    · exact absurd hll (coiMap3_mem_isSome (Or.inl hl))
    · rw [hm, hm1, hze.lookup_some hll]
  -- the topological sort is unchanged
  have hsim : MapSim (coiMap3 N pivots st) st2.n2i := by
    rw [hm, hm1]
    exact hze.mapSim
  obtain ⟨hs, hc, ht, hkeys⟩ := topoAll_sim N pivots (coiMap3 N pivots st)
    st2.n2i (coiColors N pivots st) [] hsim
  have htopo2 : coiTopo N pivots st2
      = topoAll N pivots st2.n2i (coiColors N pivots st) [] := by
    rw [coiTopo, hm3, hcolors]
  -- the rerun map stays exactly the final map of the first run
  have hmapeq : (topoAll N pivots st2.n2i (coiColors N pivots st) []).1
      = st2.n2i := by
    obtain ⟨d, hdeq, hd⟩ := topoAll_zeroExt N pivots st2.n2i
      (coiColors N pivots st) []
    cases d with
    | nil => rw [hdeq, List.append_nil]
    | cons e rest =>
      exfalso
      have hmem : e ∈ (topoAll N pivots st2.n2i (coiColors N pivots st) []).1 := by
        rw [hdeq]
        simp
      have hsome := mapLookup_isSome_of_mem hmem
      rcases hkeys e.1 hsome with hk | hk
      · exact hk (mapLookup_eq_none.mpr (hd e (List.mem_cons_self e rest)).2)
      · have hk2 : mapLookup st2.n2i e.1 ≠ none := by
          rw [hm, hm1]
          exact hk
        exact hk2 (mapLookup_eq_none.mpr (hd e (List.mem_cons_self e rest)).2)
  unfold computeSets
  rw [hinner, htopo2, ht, hmapeq, hc]
  rw [if_pos (by rw [← coiTopo]; exact hguard)]
  rw [hrec, hsorted, hleaves, ← coiTopo, hm, hm1]

/-- Claim C5: on a successfully constructed view, calling `update()` a
second time with the underlying network and pivots unchanged recomputes the
view and leaves the exposed surface unchanged: `size()`, `num_pis()`,
`num_gates()`, the leaf list, the inner-node list and the node-to-index
mapping after the second `update()` equal those after the first. -/
theorem coi_update_twice_stable (N : Network) (pivots : List Nat)
    (st1 : CoiState) (hv : coiUpdate N pivots coiInit = some st1) :
    ∃ st2, coiUpdate N pivots st1 = some st2 ∧
      st2.coi_size = st1.coi_size ∧ st2.num_pis = st1.num_pis ∧
      st2.num_gates = st1.num_gates ∧ st2.leaves = st1.leaves ∧
      st2.inner = st1.inner ∧
      (∀ n, st2.node_to_index n = st1.node_to_index n) := by
  refine ⟨st1, ?_, rfl, rfl, rfl, rfl, rfl, fun n => rfl⟩
  unfold coiUpdate at hv ⊢
  obtain ⟨hrec, hguard⟩ := computeSets_spec hv
  have hnodes1 : st1.nodes = List.insertionSort (· ≤ ·) (collectAll N pivots []) := by
    rw [hrec]
    simp [coiSortedNodes, coiInit]
  have hsat1 : ∀ p ∈ pivots, collect_saturated N p st1.nodes := by
    intro p hp
    have h0 := collectAll_saturates N pivots [] p hp
    refine collect_saturated_mono h0 ?_
    intro x hx
    rw [hnodes1]
    exact ((List.perm_insertionSort (· ≤ ·) (collectAll N pivots [])).mem_iff).mpr hx
  have hfix : collectAll N pivots st1.nodes = st1.nodes :=
    collectAll_fixed N pivots st1.nodes hsat1
  exact computeSets_stable hv (by simpa using hfix) rfl


theorem coi_update_twice_stable_witness :
    coiUpdate testNet [8, 10] coiInit = some testSt ∧
    (∃ st2, coiUpdate testNet [8, 10] testSt = some st2 ∧
      st2.coi_size = testSt.coi_size ∧ st2.num_pis = testSt.num_pis ∧
      st2.num_gates = testSt.num_gates ∧ st2.leaves = testSt.leaves ∧
      st2.inner = testSt.inner ∧
      (∀ n, st2.node_to_index n = testSt.node_to_index n)) := by
  have hv : coiUpdate testNet [8, 10] coiInit = some testSt := by
    simp [coiUpdate, collectAll, collectRec, collectGo, computeSets,
      coiSortedNodes, coiLeaves, coiInner0, coiMap3, coiSz, coiColors, coiTopo,
      buildSel, mapEmplaceAll, mapEmplace, mapLookup, mapBracket, topoAll,
      topoRec, topoGo, faninsOf, testNet, coiInit, testSt, List.insertionSort,
      List.orderedInsert]
    decide
  exact ⟨hv, coi_update_twice_stable testNet [8, 10] testSt hv⟩

/-! ### Helpers for the topological-sort invariant -/

theorem getD_set_ne {cs : List Nat} {i v x : Nat} (h : i ≠ v) :
    (cs.set v x).getD i 0 = cs.getD i 0 := by
  rw [List.getD_eq_getElem?_getD, List.getD_eq_getElem?_getD,
    List.getElem?_set_ne (fun hc => h hc.symm)]

theorem getD_set_self {cs : List Nat} {v x : Nat} (h : v < cs.length) :
    (cs.set v x).getD v 0 = x := by
  rw [List.getD_eq_getElem?_getD, List.getElem?_set_self]
  · simp
  · exact h

theorem collect_nodup (N : Network) :
    ∀ (n : Nat) (nodes : List Nat), nodes.Nodup → (collectRec N n nodes).Nodup := by
  intro n
  induction n using Nat.strong_induction_on with
  | _ n ih =>
    intro nodes hnd
    have hgo : ∀ pending (hp : ∀ f ∈ pending, f < n) nodes, nodes.Nodup →
        (collectGo N n pending hp nodes).Nodup := by
      intro pending
      induction pending with
      | nil => intro hp nodes h; rw [collectGo]; exact h
      | cons f fs ihl =>
        intro hp nodes h
        rw [collectGo]
        by_cases hmem : f ∈ nodes
        · rw [if_pos hmem]; exact h
        · rw [if_neg hmem]
          refine ihl _ _ (ih f (hp f (List.mem_cons_self f fs)) _ ?_)
          simpa [List.nodup_append] using ⟨h, hmem⟩
    rw [collectRec]
    by_cases h0 : n = 0
    · rw [if_pos h0]; exact hnd
    · rw [if_neg h0]
      by_cases hpi : N.is_pi n
      · rw [if_pos hpi]
        by_cases hmem : n ∈ nodes
        · rw [if_pos hmem]; exact hnd
        · rw [if_neg hmem]
          simpa [List.nodup_append] using ⟨hnd, hmem⟩
      · simp only [hpi, Bool.false_eq_true, if_false]
        exact hgo _ _ _ hnd

theorem collectAll_nodup (N : Network) :
    ∀ (pivots : List Nat) (nodes : List Nat), nodes.Nodup →
      (collectAll N pivots nodes).Nodup := by
  intro pivots
  induction pivots with
  | nil => intro nodes h; exact h
  | cons p rest ih =>
    intro nodes h
    simp only [collectAll, List.foldl_cons]
    exact ih _ (collect_nodup N p nodes h)

theorem buildSel_eq_filter (sel : Nat → Bool) :
    ∀ (l : List Nat) (acc : List Nat), l.Nodup → (∀ x ∈ l, x ∉ acc) →
      buildSel sel l acc = acc ++ l.filter (fun n => decide ¬ (n = 0) && sel n) := by
  intro l
  induction l with
  | nil => intro acc _ _; simp [buildSel]
  | cons n rest ih =>
    intro acc hnd hfr
    rw [buildSel]
    by_cases h0 : n = 0
    · rw [if_pos h0]
      rw [ih acc hnd.of_cons (fun x hx => hfr x (List.mem_cons_of_mem n hx))]
      simp [List.filter, h0]
    · rw [if_neg h0]
      by_cases hsel : sel n
      · rw [if_pos hsel]
        have hlast : ¬ (acc.getLast? = some n) := by
          intro hc
          have hgl := List.mem_getLast?_eq_getLast (l := acc) (x := n) hc
          obtain ⟨hne, heq⟩ := hgl
          exact hfr n (List.mem_cons_self n rest) (heq ▸ List.getLast_mem hne)
        rw [if_neg hlast]
        rw [ih (acc ++ [n]) hnd.of_cons ?fresh]
        · simp only [List.filter, h0, hsel]
          simp
        case fresh =>
          intro x hx
          simp only [List.mem_append, List.mem_singleton]
          rintro (hc | hc)
          · exact hfr x (List.mem_cons_of_mem n hx) hc
          · subst hc
            exact (List.nodup_cons.mp hnd).1 hx
      · simp only [hsel, Bool.false_eq_true, if_false]
        rw [ih acc hnd.of_cons (fun x hx => hfr x (List.mem_cons_of_mem n hx))]
        simp only [List.filter, h0, hsel]
        simp

/-! ### Structure of the pre-topo node-to-index map -/


theorem mapEmplaceAll_fresh :
    ∀ (ks : List Nat) (m : List (Nat × Nat)), ks.Nodup →
      (∀ k ∈ ks, mapLookup m k = none) →
      mapEmplaceAll m ks = m ++ withIdxFrom m.length ks := by
  intro ks
  induction ks with
  | nil => intro m _ _; simp [mapEmplaceAll, withIdxFrom]
  | cons k rest ih =>
    intro m hnd hf
    simp only [mapEmplaceAll, List.foldl_cons]
    rw [mapEmplace_of_none (hf k (List.mem_cons_self k rest))]
    have hlen : (m ++ [(k, m.length)]).length = m.length + 1 := by simp
    have hih := ih (m ++ [(k, m.length)]) hnd.of_cons ?fresh
    · simp only [mapEmplaceAll] at hih
      rw [hih, hlen, withIdxFrom, List.append_assoc]
      rfl
    case fresh =>
      intro x hx
      have hne : k ≠ x := by
        intro hc
        exact (List.nodup_cons.mp hnd).1 (hc ▸ hx)
      rw [mapLookup_append_single_ne hne]
      exact hf x (List.mem_cons_of_mem k hx)

theorem withIdxFrom_mem :
    ∀ (ks : List Nat) (s : Nat) (e : Nat × Nat), e ∈ withIdxFrom s ks →
      e.1 ∈ ks ∧ s ≤ e.2 ∧ e.2 < s + ks.length := by
  intro ks
  induction ks with
  | nil => intro s e he; simp [withIdxFrom] at he
  | cons k rest ih =>
    intro s e he
    rw [withIdxFrom] at he
    rcases List.mem_cons.mp he with rfl | he
    · exact ⟨List.mem_cons_self k rest, by omega, by simp⟩
    · obtain ⟨h1, h2, h3⟩ := ih (s + 1) e he
      exact ⟨List.mem_cons_of_mem k h1, by omega, by simp at h3 ⊢; omega⟩

theorem mapLookup_withIdxFrom_mem :
    ∀ (ks : List Nat) (s k : Nat), ks.Nodup → k ∈ ks →
      ∃ j, j < ks.length ∧ mapLookup (withIdxFrom s ks) k = some (s + j) := by
  intro ks
  induction ks with
  | nil => intro s k _ hk; simp at hk
  | cons k2 rest ih =>
    intro s k hnd hk
    rcases List.mem_cons.mp hk with rfl | hk
    · refine ⟨0, by simp, ?_⟩
      rw [withIdxFrom, mapLookup, if_pos rfl]
      simp
    · obtain ⟨j, hj, hl⟩ := ih (s + 1) k hnd.of_cons hk
      refine ⟨j + 1, by simp; omega, ?_⟩
      rw [withIdxFrom, mapLookup]
      have hne : ¬ ((k2, s).1 = k) := by
        intro hc
        exact (List.nodup_cons.mp hnd).1 (by simpa using (hc ▸ hk : (k2, s).1 ∈ rest))
      rw [if_neg hne, hl]
      congr 1
      omega

theorem withIdxFrom_coverage :
    ∀ (ks : List Nat) (s i : Nat), ks.Nodup → s ≤ i → i < s + ks.length →
      ∃ k ∈ ks, mapLookup (withIdxFrom s ks) k = some i := by
  intro ks
  induction ks with
  | nil => intro s i _ h1 h2; simp at h2; omega
  | cons k2 rest ih =>
    intro s i hnd h1 h2
    by_cases hi : i = s
    · refine ⟨k2, List.mem_cons_self k2 rest, ?_⟩
      rw [withIdxFrom, mapLookup, if_pos rfl, hi]
    · obtain ⟨k, hk, hl⟩ := ih (s + 1) i hnd.of_cons (by omega)
        (by simp at h2 ⊢; omega)
      refine ⟨k, List.mem_cons_of_mem k2 hk, ?_⟩
      rw [withIdxFrom, mapLookup]
      have hne : ¬ ((k2, s).1 = k) := by
        intro hc
        exact (List.nodup_cons.mp hnd).1 (by simpa using (hc ▸ hk : (k2, s).1 ∈ rest))
      rw [if_neg hne, hl]


theorem posValued_emplace {m : List (Nat × Nat)} (hp : PosValued m) (k : Nat) :
    PosValued (mapEmplace m k m.length) := by
  rcases hm : mapLookup m k with _ | v
  · rw [mapEmplace_of_none hm]
    intro i h
    by_cases hi : i < m.length
    · rw [List.get_append _ hi]
      exact hp i hi
    · have hieq : i = m.length := by simp at h; omega
      subst hieq
      have hg : (m ++ [(k, m.length)]).get ⟨m.length, h⟩ = (k, m.length) :=
        List.get_of_append rfl rfl
      rw [hg]
  · rw [mapEmplace_of_some hm]
    exact hp

theorem posValued_emplaceAll :
    ∀ (ks : List Nat) (m : List (Nat × Nat)), PosValued m →
      PosValued (mapEmplaceAll m ks) := by
  intro ks
  induction ks with
  | nil => intro m h; exact h
  | cons k rest ih =>
    intro m h
    simp only [mapEmplaceAll, List.foldl_cons]
    exact ih _ (posValued_emplace h k)

theorem posValued_lookup_bound {m : List (Nat × Nat)} (hp : PosValued m)
    {k v : Nat} (h : mapLookup m k = some v) : v < m.length := by
  obtain ⟨⟨i, hi⟩, hget⟩ := List.mem_iff_get.mp (mapLookup_mem h)
  have := hp i hi
  rw [hget] at this
  simp only at this
  omega

theorem posValued_lookup_get {m : List (Nat × Nat)} (hp : PosValued m)
    {k v : Nat} (h : mapLookup m k = some v) :
    ∃ hv : v < m.length, m.get ⟨v, hv⟩ = (k, v) := by
  obtain ⟨⟨i, hi⟩, hget⟩ := List.mem_iff_get.mp (mapLookup_mem h)
  have h2 := hp i hi
  rw [hget] at h2
  simp only at h2
  subst h2
  exact ⟨hi, hget⟩

theorem posValued_inj {m : List (Nat × Nat)} (hp : PosValued m)
    {k k2 v : Nat} (h : mapLookup m k = some v)
    (h2 : mapLookup m k2 = some v) : k = k2 := by
  obtain ⟨hv, hg⟩ := posValued_lookup_get hp h
  obtain ⟨hv2, hg2⟩ := posValued_lookup_get hp h2
  rw [hg] at hg2
  injection hg2

theorem mapEmplaceAll_length_le :
    ∀ (ks : List Nat) (m : List (Nat × Nat)),
      (mapEmplaceAll m ks).length ≤ m.length + ks.length := by
  intro ks
  induction ks with
  | nil => intro m; simp [mapEmplaceAll]
  | cons k rest ih =>
    intro m
    simp only [mapEmplaceAll, List.foldl_cons]
    have h1 : (mapEmplace m k m.length).length ≤ m.length + 1 := by
      unfold mapEmplace
      rcases mapLookup m k with _ | v <;> simp
    have h2 := ih (mapEmplace m k m.length)
    simp only [mapEmplaceAll] at h2
    simp only [List.length_cons]
    omega

theorem mapEmplaceAll_append_sub :
    ∀ (ks : List Nat) (m : List (Nat × Nat)),
      ∃ d, mapEmplaceAll m ks = m ++ d ∧ ∀ e ∈ d, e.1 ∈ ks := by
  intro ks
  induction ks with
  | nil => intro m; exact ⟨[], by simp [mapEmplaceAll], by simp⟩
  | cons k rest ih =>
    intro m
    simp only [mapEmplaceAll, List.foldl_cons]
    obtain ⟨d, hd, hsub⟩ := ih (mapEmplace m k m.length)
    simp only [mapEmplaceAll] at hd
    unfold mapEmplace at hd ⊢
    rcases hm : mapLookup m k with _ | v
    · rw [hm] at hd
      refine ⟨[(k, m.length)] ++ d, by rw [hd, List.append_assoc], ?_⟩
      intro e he
      rcases List.mem_append.mp he with he | he
      · simp only [List.mem_singleton] at he
        subst he
        exact List.mem_cons_self k rest
      · exact List.mem_cons_of_mem k (hsub e he)
    · rw [hm] at hd
      exact ⟨d, hd, fun e he => List.mem_cons_of_mem k (hsub e he)⟩

/-! ### Initial color vector -/

theorem foldlSet_length {f : Nat → Nat} :
    ∀ (ls : List Nat) (cs : List Nat),
      (ls.foldl (fun cs l => cs.set (f l) 2) cs).length = cs.length := by
  intro ls
  induction ls with
  | nil => intro cs; rfl
  | cons l rest ih => intro cs; rw [List.foldl_cons, ih]; simp

theorem foldlSet_getD_of_ne {f : Nat → Nat} {i : Nat} :
    ∀ (ls : List Nat) (cs : List Nat), (∀ l ∈ ls, f l ≠ i) →
      (ls.foldl (fun cs l => cs.set (f l) 2) cs).getD i 0 = cs.getD i 0 := by
  intro ls
  induction ls with
  | nil => intro cs _; rfl
  | cons l rest ih =>
    intro cs h
    rw [List.foldl_cons, ih _ (fun x hx => h x (List.mem_cons_of_mem l hx)),
      getD_set_ne (fun hc => h l (List.mem_cons_self l rest) hc.symm)]

theorem foldlSet_pres_two {f : Nat → Nat} {i : Nat} :
    ∀ (ls : List Nat) (cs : List Nat), cs.getD i 0 = 2 →
      (ls.foldl (fun cs l => cs.set (f l) 2) cs).getD i 0 = 2 := by
  intro ls
  induction ls with
  | nil => intro cs h; exact h
  | cons l rest ih =>
    intro cs h
    rw [List.foldl_cons]
    refine ih _ ?_
    by_cases hfl : f l = i
    · rw [hfl]
      by_cases hlen : i < cs.length
      · exact getD_set_self hlen
      · exfalso
        rw [List.getD_eq_getElem?_getD, List.getElem?_eq_none (by omega)] at h
        simp at h
    · rw [getD_set_ne (fun hc => hfl hc.symm)]
      exact h

theorem foldlSet_mem_two {f : Nat → Nat} {i : Nat} :
    ∀ (ls : List Nat) (cs : List Nat) (l : Nat), l ∈ ls → f l = i →
      i < cs.length → (ls.foldl (fun cs l => cs.set (f l) 2) cs).getD i 0 = 2 := by
  intro ls
  induction ls with
  | nil => intro cs l h; simp at h
  | cons l0 rest ih =>
    intro cs l h hfl hlen
    rw [List.foldl_cons]
    rcases List.mem_cons.mp h with rfl | h
    · refine foldlSet_pres_two rest _ ?_
      rw [hfl]
      exact getD_set_self hlen
    · exact ih _ l h hfl (by simp; omega)

theorem getD_replicate_zero {sz i : Nat} : (List.replicate sz 0).getD i 0 = 0 := by
  rw [List.getD_eq_getElem?_getD]
  rcases h : (List.replicate sz (0 : Nat))[i]? with _ | v
  · simp
  · have := List.getElem?_mem h
    simp only [List.mem_replicate] at this
    simp [this.2]

/-! ### Structure of the pre-topo state -/

theorem withIdxFrom_length : ∀ (ks : List Nat) (s : Nat),
    (withIdxFrom s ks).length = ks.length := by
  intro ks
  induction ks with
  | nil => intro s; rfl
  | cons k rest ih => intro s; rw [withIdxFrom]; simp [ih]

theorem withIdxFrom_lookup_none : ∀ (ks : List Nat) (s k : Nat), k ∉ ks →
    mapLookup (withIdxFrom s ks) k = none := by
  intro ks
  induction ks with
  | nil => intro s k _; rfl
  | cons k2 rest ih =>
    intro s k hk
    rw [withIdxFrom, mapLookup]
    have hne : ¬ ((k2, s).1 = k) := by
      intro hc
      exact hk (by simp at hc; rw [← hc]; exact List.mem_cons_self k2 rest)
    rw [if_neg hne]
    exact ih (s + 1) k (fun hc => hk (List.mem_cons_of_mem k2 hc))

theorem coiSortedNodes_nodup {st : CoiState} (hnd : st.nodes.Nodup) :
    (coiSortedNodes st).Nodup :=
  (List.perm_insertionSort (· ≤ ·) st.nodes).nodup_iff.mpr hnd

theorem coiLeaves_eq_filter (N : Network) {st : CoiState}
    (hnd : st.nodes.Nodup) :
    coiLeaves N st =
      (coiSortedNodes st).filter (fun n => decide ¬ (n = 0) && N.is_pi n) := by
  unfold coiLeaves
  rw [buildSel_eq_filter _ _ [] (coiSortedNodes_nodup hnd) (by simp)]
  simp

theorem coiInner0_eq_filter (N : Network) {st : CoiState}
    (hnd : st.nodes.Nodup) :
    coiInner0 N st =
      (coiSortedNodes st).filter (fun n => decide ¬ (n = 0) && !N.is_pi n) := by
  unfold coiInner0
  rw [buildSel_eq_filter _ _ [] (coiSortedNodes_nodup hnd) (by simp)]
  simp

theorem coiLeaves_nodup (N : Network) {st : CoiState} (hnd : st.nodes.Nodup) :
    (coiLeaves N st).Nodup := by
  rw [coiLeaves_eq_filter N hnd]
  exact (coiSortedNodes_nodup hnd).filter _

theorem coiInner0_nodup (N : Network) {st : CoiState} (hnd : st.nodes.Nodup) :
    (coiInner0 N st).Nodup := by
  rw [coiInner0_eq_filter N hnd]
  exact (coiSortedNodes_nodup hnd).filter _

theorem coiLeaves_spec (N : Network) {st : CoiState} (hnd : st.nodes.Nodup)
    {l : Nat} (hl : l ∈ coiLeaves N st) : l ≠ 0 ∧ N.is_pi l = true := by
  rw [coiLeaves_eq_filter N hnd] at hl
  have := (List.mem_filter.mp hl).2
  simp at this
  exact this

theorem coiInner0_spec (N : Network) {st : CoiState} (hnd : st.nodes.Nodup)
    {l : Nat} (hl : l ∈ coiInner0 N st) : l ≠ 0 ∧ N.is_pi l = false := by
  rw [coiInner0_eq_filter N hnd] at hl
  have := (List.mem_filter.mp hl).2
  simp at this
  exact this

theorem coiMap3_m1 (N : Network) {st : CoiState}
    (hn2i : st.n2i = [(0, 0)]) (hnd : st.nodes.Nodup) :
    mapEmplaceAll st.n2i (coiLeaves N st) =
      [(0, 0)] ++ withIdxFrom 1 (coiLeaves N st) := by
  rw [hn2i]
  have h := mapEmplaceAll_fresh (coiLeaves N st) [(0, 0)]
    (coiLeaves_nodup N hnd) ?fresh
  · simpa using h
  case fresh =>
    intro k hk
    rw [mapLookup_single, if_neg (fun hc => (coiLeaves_spec N hnd hk).1 hc.symm)]

theorem coiMap3_m2 (N : Network) {st : CoiState}
    (hn2i : st.n2i = [(0, 0)]) (hnd : st.nodes.Nodup) :
    mapEmplaceAll (mapEmplaceAll st.n2i (coiLeaves N st)) (coiInner0 N st) =
      ([(0, 0)] ++ withIdxFrom 1 (coiLeaves N st))
        ++ withIdxFrom (1 + (coiLeaves N st).length) (coiInner0 N st) := by
  rw [coiMap3_m1 N hn2i hnd]
  have h := mapEmplaceAll_fresh (coiInner0 N st)
    ([(0, 0)] ++ withIdxFrom 1 (coiLeaves N st)) (coiInner0_nodup N hnd) ?fresh
  · rw [h]
    congr 1
    simp only [List.length_append, withIdxFrom_length, List.length_singleton]
  case fresh =>
    intro k hk
    have hk0 := (coiInner0_spec N hnd hk).1
    have hknL : k ∉ coiLeaves N st := by
      intro hc
      have h1 := (coiLeaves_spec N hnd hc).2
      have h2 := (coiInner0_spec N hnd hk).2
      rw [h1] at h2
      simp at h2
    rw [mapLookup_append_none (by rw [mapLookup_single, if_neg (fun hc => hk0 hc.symm)])]
    exact withIdxFrom_lookup_none _ 1 k hknL

theorem coiMap3_decomp (N : Network) (pivots : List Nat) {st : CoiState}
    (hn2i : st.n2i = [(0, 0)]) (hnd : st.nodes.Nodup) :
    ∃ dP, coiMap3 N pivots st =
      (([(0, 0)] ++ withIdxFrom 1 (coiLeaves N st))
        ++ withIdxFrom (1 + (coiLeaves N st).length) (coiInner0 N st)) ++ dP ∧
      ∀ e ∈ dP, e.1 ∈ pivots := by
  obtain ⟨dP, hd, hsub⟩ := mapEmplaceAll_append_sub pivots
    (mapEmplaceAll (mapEmplaceAll st.n2i (coiLeaves N st)) (coiInner0 N st))
  refine ⟨dP, ?_, hsub⟩
  unfold coiMap3
  rw [hd, coiMap3_m2 N hn2i hnd]

theorem coiMap3_length_le (N : Network) (pivots : List Nat) {st : CoiState}
    (hn2i : st.n2i = [(0, 0)]) (hnd : st.nodes.Nodup) :
    (coiMap3 N pivots st).length ≤ coiSz N pivots st := by
  unfold coiMap3
  rw [coiMap3_m2 N hn2i hnd]
  have h1 := mapEmplaceAll_length_le pivots
    (([(0, 0)] ++ withIdxFrom 1 (coiLeaves N st))
      ++ withIdxFrom (1 + (coiLeaves N st).length) (coiInner0 N st))
  simp only [List.length_append, withIdxFrom_length, List.length_singleton] at h1
  unfold coiSz
  simp only [List.length_append]
  omega

theorem coiMap3_posValued (N : Network) (pivots : List Nat) {st : CoiState}
    (hn2i : st.n2i = [(0, 0)]) : PosValued (coiMap3 N pivots st) := by
  unfold coiMap3
  refine posValued_emplaceAll _ _ (posValued_emplaceAll _ _
    (posValued_emplaceAll _ _ ?_))
  rw [hn2i]
  intro i h
  have hi : i = 0 := by simp at h; omega
  subst hi
  rfl

theorem coiMap3_leaf_lookup (N : Network) (pivots : List Nat) {st : CoiState}
    (hn2i : st.n2i = [(0, 0)]) (hnd : st.nodes.Nodup) {l : Nat}
    (hl : l ∈ coiLeaves N st) :
    ∃ j, j < (coiLeaves N st).length ∧
      mapLookup (coiMap3 N pivots st) l = some (1 + j) := by
  obtain ⟨j, hj, hw⟩ := mapLookup_withIdxFrom_mem (coiLeaves N st) 1 l
    (coiLeaves_nodup N hnd) hl
  refine ⟨j, hj, ?_⟩
  have h1 : mapLookup (mapEmplaceAll st.n2i (coiLeaves N st)) l = some (1 + j) := by
    rw [coiMap3_m1 N hn2i hnd,
      mapLookup_append_none
        (by rw [mapLookup_single,
              if_neg (fun hc => (coiLeaves_spec N hnd hl).1 hc.symm)]),
      hw]
  exact mapEmplaceAll_pres_some pivots _ (mapEmplaceAll_pres_some _ _ h1)

theorem coiMap3_coverage (N : Network) (pivots : List Nat) {st : CoiState}
    (hn2i : st.n2i = [(0, 0)]) (hnd : st.nodes.Nodup) {i : Nat}
    (h1 : 1 ≤ i) (h2 : i ≤ (coiLeaves N st).length) :
    ∃ l ∈ coiLeaves N st, mapLookup (coiMap3 N pivots st) l = some i := by
  obtain ⟨l, hl, hw⟩ := withIdxFrom_coverage (coiLeaves N st) 1 i
    (coiLeaves_nodup N hnd) h1 (by omega)
  refine ⟨l, hl, ?_⟩
  have hm1 : mapLookup (mapEmplaceAll st.n2i (coiLeaves N st)) l = some i := by
    rw [coiMap3_m1 N hn2i hnd,
      mapLookup_append_none
        (by rw [mapLookup_single,
              if_neg (fun hc => (coiLeaves_spec N hnd hl).1 hc.symm)]),
      hw]
  exact mapEmplaceAll_pres_some pivots _ (mapEmplaceAll_pres_some _ _ hm1)

theorem coiMap3_high_keys (N : Network) (pivots : List Nat) {st : CoiState}
    (hn2i : st.n2i = [(0, 0)]) (hnd : st.nodes.Nodup) {k v : Nat}
    (h : mapLookup (coiMap3 N pivots st) k = some v)
    (hv : (coiLeaves N st).length < v) :
    k ∈ coiInner0 N st ∨ k ∈ pivots := by
  obtain ⟨dP, hM, hsub⟩ := coiMap3_decomp N pivots hn2i hnd
  have hmem := mapLookup_mem h
  rw [hM] at hmem
  rcases List.mem_append.mp hmem with hb | hd
  · rcases List.mem_append.mp hb with hb2 | hI
    · rcases List.mem_append.mp hb2 with h0 | hL
      · simp at h0
        omega
      · have := (withIdxFrom_mem (coiLeaves N st) 1 _ hL).2.2
        simp only at this
        omega
    · exact Or.inl (withIdxFrom_mem (coiInner0 N st) _ _ hI).1
  · exact Or.inr (hsub _ hd)

theorem coiMap3_lookup_lt_sz (N : Network) (pivots : List Nat) {st : CoiState}
    (hn2i : st.n2i = [(0, 0)]) (hnd : st.nodes.Nodup) {k v : Nat}
    (h : mapLookup (coiMap3 N pivots st) k = some v) :
    v < coiSz N pivots st :=
  lt_of_lt_of_le
    (posValued_lookup_bound (coiMap3_posValued N pivots hn2i) h)
    (coiMap3_length_le N pivots hn2i hnd)

theorem coiColors_length (N : Network) (pivots : List Nat) (st : CoiState) :
    (coiColors N pivots st).length = coiSz N pivots st := by
  unfold coiColors
  rw [List.length_set, foldlSet_length, List.length_replicate]

theorem coiSz_pos (N : Network) (pivots : List Nat) (st : CoiState) :
    0 < coiSz N pivots st := by
  unfold coiSz
  omega

theorem coiColors_low (N : Network) (pivots : List Nat) {st : CoiState}
    (hn2i : st.n2i = [(0, 0)]) (hnd : st.nodes.Nodup) {i : Nat}
    (hi : i ≤ (coiLeaves N st).length) :
    (coiColors N pivots st).getD i 0 = 2 := by
  unfold coiColors
  by_cases h0 : i = 0
  · subst h0
    refine getD_set_self ?_
    rw [foldlSet_length, List.length_replicate]
    exact coiSz_pos N pivots st
  · rw [getD_set_ne h0]
    obtain ⟨l, hl, hw⟩ := coiMap3_coverage N pivots hn2i hnd
      (Nat.one_le_iff_ne_zero.mpr h0) hi
    refine foldlSet_mem_two _ _ l hl (by rw [hw]; rfl) ?_
    rw [List.length_replicate]
    have := coiMap3_lookup_lt_sz N pivots hn2i hnd hw
    omega

theorem coiColors_high (N : Network) (pivots : List Nat) {st : CoiState}
    (hn2i : st.n2i = [(0, 0)]) (hnd : st.nodes.Nodup) {k v : Nat}
    (h : mapLookup (coiMap3 N pivots st) k = some v)
    (hv : (coiLeaves N st).length < v) :
    (coiColors N pivots st).getD v 0 = 0 := by
  unfold coiColors
  rw [getD_set_ne (show v ≠ 0 by omega)]
  rw [foldlSet_getD_of_ne _ _ ?hne]
  · exact getD_replicate_zero
  case hne =>
    intro l hl
    obtain ⟨j, hj, hw⟩ := coiMap3_leaf_lookup N pivots hn2i hnd hl
    rw [hw]
    simp only [Option.getD_some]
    omega

/-! ### The topological-sort invariant -/

theorem topoRec_found_done {N : Network} {n v : Nat} {m : List (Nat × Nat)}
    {cs tp : List Nat} (hm : mapLookup m n = some v)
    (h2 : cs.getD v 0 = 2) : topoRec N n m cs tp = (m, cs, tp) := by
  rw [topoRec]
  simp only [mapBracket, hm, h2, if_true]

theorem topoRec_found_rec {N : Network} {n v : Nat} {m : List (Nat × Nat)}
    {cs tp : List Nat} (hm : mapLookup m n = some v)
    (h2 : ¬ cs.getD v 0 = 2) :
    topoRec N n m cs tp =
      ((topoGo N n (faninsOf N n) (faninsOf_lt N n) m (cs.set v 1) tp).1,
       (topoGo N n (faninsOf N n) (faninsOf_lt N n) m (cs.set v 1) tp).2.1.set v 2,
       (topoGo N n (faninsOf N n) (faninsOf_lt N n) m (cs.set v 1) tp).2.2 ++ [n]) := by
  rw [topoRec]
  simp only [mapBracket, hm, h2, if_false]

theorem topoRec_fresh_done {N : Network} {n : Nat} {m : List (Nat × Nat)}
    {cs tp : List Nat} (hm : mapLookup m n = none)
    (h2 : cs.getD 0 0 = 2) : topoRec N n m cs tp = (m ++ [(n, 0)], cs, tp) := by
  rw [topoRec]
  simp only [mapBracket, hm, h2, if_true]

theorem topoRec_tinv (N : Network) (M : List (Nat × Nat)) (nL sz : Nat)
    (hpv : PosValued M) (hbound : ∀ k v, mapLookup M k = some v → v < sz) :
    ∀ (n : Nat) (m : List (Nat × Nat)) (cs tp : List Nat),
      TInv M nL sz m cs tp →
      TInv M nL sz (topoRec N n m cs tp).1 (topoRec N n m cs tp).2.1
        (topoRec N n m cs tp).2.2 ∧
      ∃ d, (topoRec N n m cs tp).2.2 = tp ++ d ∧ ∀ x ∈ d, x ≤ n := by
  intro n
  induction n using Nat.strong_induction_on with
  | _ n ih =>
    have hgo : ∀ pending (hp : ∀ f ∈ pending, f < n) m cs tp,
        TInv M nL sz m cs tp →
        TInv M nL sz (topoGo N n pending hp m cs tp).1
          (topoGo N n pending hp m cs tp).2.1
          (topoGo N n pending hp m cs tp).2.2 ∧
        ∃ d, (topoGo N n pending hp m cs tp).2.2 = tp ++ d ∧
          ∀ x ∈ d, x < n := by
      intro pending
      induction pending with
      | nil =>
        intro hp m cs tp hinv
        rw [topoGo]
        exact ⟨hinv, [], by simp, by simp⟩
      | cons f fs ihl =>
        intro hp m cs tp hinv
        rw [topoGo]
        have hf := hp f (List.mem_cons_self f fs)
        obtain ⟨h1, d1, hd1, hlt1⟩ := ih f hf m cs tp hinv
        obtain ⟨h2, d2, hd2, hlt2⟩ :=
          ihl (fun x hx => hp x (List.mem_cons_of_mem f hx)) _ _ _ h1
        refine ⟨h2, d1 ++ d2, ?_, ?_⟩
        · rw [hd2, hd1, List.append_assoc]
        · intro x hx
          rcases List.mem_append.mp hx with hx | hx
          · exact lt_of_le_of_lt (hlt1 x hx) hf
          · exact hlt2 x hx
    intro m cs tp hinv
    obtain ⟨hze, hlen, hnd, hlow, hkeys, hiff⟩ := hinv
    rcases hm : mapLookup m n with _ | v
    · rw [topoRec_fresh_done hm (hlow 0 (Nat.zero_le nL))]
      refine ⟨⟨ZeroExt.trans hze (ZeroExt.single hm), hlen, hnd, hlow, hkeys, hiff⟩,
        [], by simp, by simp⟩
    · by_cases hcol : cs.getD v 0 = 2
      · rw [topoRec_found_done hm hcol]
        exact ⟨⟨hze, hlen, hnd, hlow, hkeys, hiff⟩, [], by simp, by simp⟩
      · rw [topoRec_found_rec hm hcol]
        have hMn : mapLookup M n = some v := by
          rcases hze.lookup n with he | ⟨hMe, hme⟩
          · rw [← he]; exact hm
          · rw [hm] at hme
            have hv0 : v = 0 := Option.some.inj hme
            exact absurd (hv0 ▸ hlow 0 (Nat.zero_le nL)) hcol
        have hvnL : nL < v := by
          by_contra h
          exact hcol (hlow v (by omega))
        have hvsz : v < sz := hbound n v hMn
        have hnotin : n ∉ tp := fun hc => hcol ((hiff n v hMn hvnL).mpr hc)
        have hinv1 : TInv M nL sz m (cs.set v 1) tp := by
          refine ⟨hze, by simp [hlen], hnd, ?_, hkeys, ?_⟩
          · intro i hi
            rw [getD_set_ne (show i ≠ v by omega)]
            exact hlow i hi
          · intro k w hk hw
            by_cases hwv : w = v
            · subst hwv
              have hkn : k = n := posValued_inj hpv hk hMn
              subst hkn
              rw [getD_set_self (by rw [hlen]; exact hvsz)]
              simp [hnotin]
            · rw [getD_set_ne hwv]
              exact hiff k w hk hw
        obtain ⟨hinv2, d, hd, hdlt⟩ :=
          hgo (faninsOf N n) (faninsOf_lt N n) m (cs.set v 1) tp hinv1
        obtain ⟨hze2, hlen2, hnd2, hlow2, hkeys2, hiff2⟩ := hinv2
        have hnotin2 :
            n ∉ (topoGo N n (faninsOf N n) (faninsOf_lt N n) m
              (cs.set v 1) tp).2.2 := by
          rw [hd]
          intro hc
          rcases List.mem_append.mp hc with hc | hc
          · exact hnotin hc
          · exact absurd (hdlt n hc) (by omega)
        refine ⟨⟨hze2, by simp [hlen2], ?_, ?_, ?_, ?_⟩, d ++ [n], ?_, ?_⟩
        · simp only [List.nodup_append, List.nodup_singleton]
          exact ⟨hnd2, by simpa using hnotin2⟩
        · intro i hi
          rw [getD_set_ne (show i ≠ v by omega)]
          exact hlow2 i hi
        · intro k hk
          rcases List.mem_append.mp hk with hk | hk
          · exact hkeys2 k hk
          · simp only [List.mem_singleton] at hk
            subst hk
            exact ⟨v, hMn, hvnL⟩
        · intro k w hk hw
          by_cases hwv : w = v
          · subst hwv
            have hkn : k = n := posValued_inj hpv hk hMn
            subst hkn
            rw [getD_set_self (by rw [hlen2]; exact hvsz)]
            simp
          · rw [getD_set_ne hwv]
            have hkn : k ≠ n := by
              intro hc
              subst hc
              rw [hk] at hMn
              exact hwv (Option.some.inj hMn)
            rw [hiff2 k w hk hw]
            simp [hkn]
        · rw [hd, List.append_assoc]
        · intro x hx
          rcases List.mem_append.mp hx with hx | hx
          · exact Nat.le_of_lt (hdlt x hx)
          · simp only [List.mem_singleton] at hx
            exact Nat.le_of_eq hx

theorem topoAll_tinv (N : Network) (M : List (Nat × Nat)) (nL sz : Nat)
    (hpv : PosValued M) (hbound : ∀ k v, mapLookup M k = some v → v < sz) :
    ∀ (pivots : List Nat) (m : List (Nat × Nat)) (cs tp : List Nat),
      TInv M nL sz m cs tp →
      TInv M nL sz (topoAll N pivots m cs tp).1 (topoAll N pivots m cs tp).2.1
        (topoAll N pivots m cs tp).2.2 := by
  intro pivots
  induction pivots with
  | nil => intro m cs tp h; exact h
  | cons p rest ih =>
    intro m cs tp h
    simp only [topoAll, List.foldl_cons]
    have h1 := (topoRec_tinv N M nL sz hpv hbound p m cs tp h).1
    have h2 := ih (topoRec N p m cs tp).1 (topoRec N p m cs tp).2.1
      (topoRec N p m cs tp).2.2 h1
    simp only [topoAll] at h2
    exact h2

theorem tinv_init (N : Network) (pivots : List Nat) {st : CoiState}
    (hn2i : st.n2i = [(0, 0)]) (hnd : st.nodes.Nodup) :
    TInv (coiMap3 N pivots st) (coiLeaves N st).length (coiSz N pivots st)
      (coiMap3 N pivots st) (coiColors N pivots st) [] := by
  refine ⟨ZeroExt.refl _, coiColors_length N pivots st, List.nodup_nil,
    fun i hi => coiColors_low N pivots hn2i hnd hi, by simp, ?_⟩
  intro k v hk hv
  rw [coiColors_high N pivots hn2i hnd hk hv]
  simp

/-- When `compute_sets` succeeds from a fresh map, every pivot appears
exactly once in `_inner` (`= _topo`): `_topo` is duplicate-free, its
members all carry inner/pivot indices, and the success condition
`_inner.size() == _topo.size()` forces the inclusion to be a bijection. -/
theorem computeSets_pivot_once (N : Network) (pivots : List Nat)
    {st0 st : CoiState} (hn2i : st0.n2i = [(0, 0)]) (hnd : st0.nodes.Nodup)
    {p : Nat} (hp : p ∈ pivots)
    (hv : computeSets N pivots st0 = some st) : st.inner.count p = 1 := by
  obtain ⟨hspec, hlen⟩ := computeSets_spec hv
  have hpv := coiMap3_posValued N pivots hn2i
  have hbound : ∀ k v, mapLookup (coiMap3 N pivots st0) k = some v →
      v < coiSz N pivots st0 :=
    fun k v hk => coiMap3_lookup_lt_sz N pivots hn2i hnd hk
  have hfin := topoAll_tinv N (coiMap3 N pivots st0) (coiLeaves N st0).length
    (coiSz N pivots st0) hpv hbound pivots (coiMap3 N pivots st0)
    (coiColors N pivots st0) [] (tinv_init N pivots hn2i hnd)
  have htopo : coiTopo N pivots st0 =
      topoAll N pivots (coiMap3 N pivots st0) (coiColors N pivots st0) [] := rfl
  rw [← htopo] at hfin
  obtain ⟨hze, hclen, hndtp, hlow, hkeys, hiff⟩ := hfin
  have hsub : ∀ k ∈ (coiTopo N pivots st0).2.2,
      k ∈ coiInner0 N st0 ++ pivots := by
    intro k hk
    obtain ⟨v, hkv, hvnL⟩ := hkeys k hk
    rcases coiMap3_high_keys N pivots hn2i hnd hkv hvnL with h | h
    · exact List.mem_append.mpr (Or.inl h)
    · exact List.mem_append.mpr (Or.inr h)
  have hA : (coiTopo N pivots st0).2.2.toFinset.card =
      (coiTopo N pivots st0).2.2.length :=
    List.toFinset_card_of_nodup hndtp
  have hB : (coiInner0 N st0 ++ pivots).toFinset.card ≤
      (coiInner0 N st0 ++ pivots).length :=
    List.toFinset_card_le _
  have hABsub : (coiTopo N pivots st0).2.2.toFinset ⊆
      (coiInner0 N st0 ++ pivots).toFinset := by
    intro k hk
    exact List.mem_toFinset.mpr (hsub k (List.mem_toFinset.mp hk))
  have hAB : (coiTopo N pivots st0).2.2.toFinset =
      (coiInner0 N st0 ++ pivots).toFinset := by
    refine Finset.eq_of_subset_of_card_le hABsub ?_
    rw [hA, ← hlen]
    exact hB
  have hpmem : p ∈ (coiTopo N pivots st0).2.2 := by
    have h1 : p ∈ (coiInner0 N st0 ++ pivots).toFinset :=
      List.mem_toFinset.mpr (List.mem_append.mpr (Or.inr hp))
    rw [← hAB] at h1
    exact List.mem_toFinset.mp h1
  rw [hspec]
  exact List.count_eq_one_of_mem hndtp hpmem

/-- Specialization to the constructor: the view is built from the initial
state, whose map holds only the constant and whose node list is collected
from scratch. -/
theorem coi_pivot_in_inner_once (N : Network) (pivots : List Nat)
    {st : CoiState} {p : Nat} (hp : p ∈ pivots)
    (hv : coiView N pivots = some st) : st.inner.count p = 1 := by
  unfold coiView coiUpdate at hv
  exact computeSets_pivot_once N pivots rfl
    (collectAll_nodup N pivots coiInit.nodes List.nodup_nil) hp hv

/-- C6: for a coi view built from two pivots where one pivot is an
ancestor of the other (it lies in the transitive fan-in cone of the other
pivot), the ancestor pivot appears exactly once in the view's inner-node
list `_inner`, serving both as an interior node and as a declared output,
never twice. -/
theorem coi_ancestor_pivot_appears_once (N : Network) (p q : Nat)
    (hanc : is_ancestor N p q) {st : CoiState}
    (hv : coiView N [p, q] = some st) : st.inner.count p = 1 :=
  coi_pivot_in_inner_once N [p, q] (List.mem_cons_self p [q]) hv

theorem coi_ancestor_pivot_appears_once_witness :
    is_ancestor testNet 8 10 ∧ coiView testNet [8, 10] = some testSt ∧
    testSt.inner.count 8 = 1 := by
  have hanc : is_ancestor testNet 8 10 := Relation.TransGen.single (by decide)
  have hv : coiView testNet [8, 10] = some testSt := by
    simp [coiView, coiUpdate, collectAll, collectRec, collectGo, computeSets,
      coiSortedNodes, coiLeaves, coiInner0, coiMap3, coiSz, coiColors, coiTopo,
      buildSel, mapEmplaceAll, mapEmplace, mapLookup, mapBracket, topoAll,
      topoRec, topoGo, faninsOf, testNet, coiInit, testSt, List.insertionSort,
      List.orderedInsert]
    decide
  exact ⟨hanc, hv, coi_ancestor_pivot_appears_once testNet 8 10 hanc hv⟩

